import Mathlib

/-!
Verification development for the JobPulse resilient reconciliation pipeline.

The Python sources under `src/` are shallowly embedded as executable Lean
definitions: strings are `List Char` at the core (wrapped into `String` at the
edges), Python integers are `Int`/`Nat`, Python floats arising from
`sum/len` and `round(x, 1)` are idealized as exact rationals `ℚ` with
round-half-to-even (Python's rounding mode), optional values are `Option`,
and the SQLite tables are lists of records threaded through an explicit
state.  The standard-library collaborator `html.unescape` is modelled by the
core named entities only (`&amp;` `&lt;` `&gt;` `&quot;` `&#39;`); every
repository-owned function is translated clause by clause from its source.
-/

namespace JobPulse

/-- Python `\s` / `str.strip()` whitespace over the ASCII range. -/
def isPySpace (c : Char) : Bool :=
  c = ' ' || c = '\t' || c = '\n' || c = '\r' || c = Char.ofNat 11 || c = Char.ofNat 12

/-- Python regex `\w` word characters (ASCII model). -/
def isWordChar (c : Char) : Bool :=
  c.isAlphanum || c = '_'

/-- Python `str.lower()` (ASCII model). -/
def lowerStr (s : List Char) : List Char := s.map Char.toLower

/-- Python `str.upper()` (ASCII model). -/
def upperStr (s : List Char) : List Char := s.map Char.toUpper

/-- Python `str.strip()`: drop whitespace from both ends. -/
def pyStrip (s : List Char) : List Char :=
  ((s.dropWhile isPySpace).reverse.dropWhile isPySpace).reverse

theorem length_dropWhile_le (p : Char → Bool) (l : List Char) :
    (l.dropWhile p).length ≤ l.length := by
  induction l with
  | nil => simp [List.dropWhile]
  | cons c t ih =>
    simp only [List.dropWhile]
    cases p c <;> simp <;> omega

theorem length_dropWhile_tail_lt (p : Char → Bool) (l : List Char)
    (h : List.dropWhile p l ≠ []) :
    (List.dropWhile p l).tail.length + 1 ≤ l.length := by
  have h1 := length_dropWhile_le p l
  cases hr : List.dropWhile p l with
  | nil => exact absurd hr h
  | cons a t => rw [hr] at h1; simpa using h1

/-- `strip_html`, first layer: `re.sub(r"<[^>]+>", "", text)`, as the
equivalent left-to-right scan.  After an unmatched `<` the characters seen so
far are buffered (in reverse); a `>` closing a non-empty body drops the whole
tag, a `>` right after the `<` keeps both literally, and an unterminated
buffer is emitted unchanged at the end. -/
def stripTagsGo (buf : Option (List Char)) : List Char → List Char
  | [] =>
    match buf with
    | none => []
    | some b => '<' :: b.reverse
  | c :: rest =>
    match buf with
    | none =>
      if c = '<' then stripTagsGo (some []) rest
      else c :: stripTagsGo none rest
    | some b =>
      if c = '>' then
        if b.isEmpty then '<' :: '>' :: stripTagsGo none rest
        else stripTagsGo none rest
      else stripTagsGo (some (c :: b)) rest

def stripTags (s : List Char) : List Char := stripTagsGo none s

/-- Model of the stdlib collaborator `html.unescape`, restricted to the core
named character references; all other text passes through unchanged. -/
def unescapeCore : List Char → List Char
  | [] => []
  | '&' :: 'a' :: 'm' :: 'p' :: ';' :: r => '&' :: unescapeCore r
  | '&' :: 'l' :: 't' :: ';' :: r => '<' :: unescapeCore r
  | '&' :: 'g' :: 't' :: ';' :: r => '>' :: unescapeCore r
  | '&' :: 'q' :: 'u' :: 'o' :: 't' :: ';' :: r => '"' :: unescapeCore r
  | '&' :: '#' :: '3' :: '9' :: ';' :: r => Char.ofNat 39 :: unescapeCore r
  | c :: r => c :: unescapeCore r

/-- `strip_html(text)`: remove tags, then decode entities. -/
def stripHtmlCore (s : List Char) : List Char :=
  unescapeCore (stripTags s)

/-- First layer of `normalize_whitespace`: `re.sub(r"\s+", " ", text)`,
collapsing each whitespace run to a single space (the flag tracks being
inside a run). -/
def collapseGo (inRun : Bool) : List Char → List Char
  | [] => []
  | c :: rest =>
    if isPySpace c then
      if inRun then collapseGo true rest else ' ' :: collapseGo true rest
    else c :: collapseGo false rest

def collapseWs (s : List Char) : List Char := collapseGo false s

/-- `normalize_whitespace(text)`: collapse whitespace runs and strip. -/
def normWsCore (s : List Char) : List Char :=
  pyStrip (collapseWs s)

/-- Python `str.split()` with no separator: split on whitespace runs,
dropping empty pieces (`cur` buffers the current word in reverse). -/
def splitGo (cur : List Char) : List Char → List (List Char)
  | [] => if cur.isEmpty then [] else [cur.reverse]
  | c :: rest =>
    if isPySpace c then
      if cur.isEmpty then splitGo [] rest else cur.reverse :: splitGo [] rest
    else splitGo (c :: cur) rest

def splitWsCore (s : List Char) : List (List Char) := splitGo [] s

/-- `" ".join(words)`. -/
def joinWords : List (List Char) → List Char
  | [] => []
  | [w] => w
  | w :: ws => w ++ ' ' :: joinWords ws

/-- One entry of `TITLE_EXPANSIONS`: a case-insensitive abbreviation pattern
`\bWORD\.?\s*` (when `wsStar`) or `\bWORD\.?\b` (otherwise) with its
replacement text. -/
structure Expansion where
  word : List Char
  wsStar : Bool
  repl : List Char

/-- `TITLE_EXPANSIONS`, in the source's insertion order. -/
def TITLE_EXPANSIONS : List Expansion :=
  [⟨"sr".data, true, "Senior ".data⟩,
   ⟨"jr".data, true, "Junior ".data⟩,
   ⟨"eng".data, false, "Engineer".data⟩,
   ⟨"dev".data, false, "Developer".data⟩,
   ⟨"mgr".data, false, "Manager".data⟩,
   ⟨"admin".data, false, "Administrator".data⟩,
   ⟨"ops".data, false, "Operations".data⟩,
   ⟨"arch".data, false, "Architect".data⟩,
   ⟨"mkt".data, false, "Marketing".data⟩,
   ⟨"prod".data, false, "Product".data⟩]

/-- Length of the text matched by an expansion pattern at the head of `s`,
assuming the word-boundary before the match has already been checked.
Mirrors the regex engine: the literal word case-insensitively, then greedy
`\.?` (with backtracking against the trailing `\b` for non-`wsStar`
patterns), then `\s*` for `wsStar` patterns. `none` when there is no match. -/
def matchLen (e : Expansion) (s : List Char) : Option Nat :=
  match e.word with
  | [] => none
  | _ =>
    if lowerStr (s.take e.word.length) = e.word ∧ e.word.length ≤ s.length then
      let rest := s.drop e.word.length
      if e.wsStar then
        match rest with
        | '.' :: r1 => some (e.word.length + 1 + (r1.takeWhile isPySpace).length)
        | _ => some (e.word.length + (rest.takeWhile isPySpace).length)
      else
        match rest with
        | [] => some e.word.length
        | '.' :: r2 =>
          match r2 with
          | c :: _ => if isWordChar c then some (e.word.length + 1) else some e.word.length
          | [] => some e.word.length
        | c :: _ => if isWordChar c then none else some e.word.length
    else none

theorem matchLen_pos (e : Expansion) (s : List Char) (n : Nat)
    (h : matchLen e s = some n) : 1 ≤ n := by
  unfold matchLen at h
  cases hw : e.word with
  | nil => rw [hw] at h; exact absurd h (by simp)
  | cons a t =>
    rw [hw] at h
    simp only [List.length_cons] at h
    repeat' split at h
    all_goals simp_all
    all_goals omega

/-- `re.sub` for one expansion pattern: left-to-right scan over the original
string, tracking whether the previous original character is a word character
(for the leading `\b`), emitting the replacement and resuming after each
match.  The fuel starts at the string length; every step consumes at least
one character, so it never runs out. -/
def subExpGo (e : Expansion) : Nat → Bool → List Char → List Char
  | _, _, [] => []
  | 0, _, s => s
  | fuel + 1, prevW, c :: rest =>
    match matchLen e (c :: rest) with
    | some n =>
      if prevW then c :: subExpGo e fuel (isWordChar c) rest
      else
        e.repl ++ subExpGo e fuel
          (match ((c :: rest).take n).getLast? with
           | some d => isWordChar d
           | none => false) ((c :: rest).drop n)
    | none => c :: subExpGo e fuel (isWordChar c) rest

def subExp (e : Expansion) (s : List Char) : List Char :=
  subExpGo e s.length false s

/-- The `for pattern, expansion in TITLE_EXPANSIONS.items()` loop. -/
def expandAll (s : List Char) : List Char :=
  TITLE_EXPANSIONS.foldl (fun acc e => subExp e acc) s

/-- The `ACRONYMS` set (stored lowercase, as in the source). -/
def ACRONYMS : List (List Char) :=
  ["api", "aws", "gcp", "ui", "ux", "qa", "ci", "cd", "ml", "ai",
   "sre", "cto", "ceo", "vp", "hr", "it", "sql", "nosql", "saas",
   "b2b", "b2c", "sdk", "ios", "devops", "devsecops"].map String.data

/-- Python `str.capitalize()` (ASCII model): first character upper-cased,
the rest lower-cased. -/
def pyCapitalize : List Char → List Char
  | [] => []
  | c :: r => Char.toUpper c :: r.map Char.toLower

/-- The per-word branch of `normalize_title`'s title-casing loop. -/
def caseWord (w : List Char) : List Char :=
  if ACRONYMS.contains (lowerStr w) then upperStr w
  else if w.head? = some '(' ∧ w.getLast? = some ')' then
    let inner := (w.drop 1).dropLast
    if ACRONYMS.contains (lowerStr inner) then '(' :: (upperStr inner ++ [')'])
    else w
  else if (w.drop 1).any Char.isUpper then w
  else pyCapitalize w

/-- `normalize_title`, core. -/
def normTitleCore (s : List Char) : List Char :=
  joinWords ((splitWsCore (expandAll (normWsCore (stripHtmlCore s)))).map caseWord)

/-- `normalize_title(raw_title)`. -/
def normalize_title (s : String) : String :=
  ⟨normTitleCore s.data⟩

/-- The alternatives of the trailing legal-suffix regex
`\s+(Inc\.?|LLC|Ltd\.?|Corp\.?|GmbH|S\.A\.|B\.V\.)$` (stored lowercase;
matching is case-insensitive, and the optional dots make both spellings
alternatives). -/
def LEGAL_SUFFIXES : List (List Char) :=
  ["inc.", "inc", "llc", "ltd.", "ltd", "corp.", "corp",
   "gmbh", "s.a.", "b.v."].map String.data

/-- The one `re.sub` of `normalize_company`: remove a trailing legal suffix
together with the whole whitespace run preceding it (the regex's greedy,
leftmost `\s+`); at most one removal, anchored at the end. -/
def suffixStrip (s : List Char) : List Char :=
  let r := s.reverse
  match LEGAL_SUFFIXES.find? (fun a => lowerStr (r.take a.length) = a.reverse) with
  | some a =>
    let after := r.drop a.length
    if after.head?.any isPySpace then (after.dropWhile isPySpace).reverse
    else s
  | none => s

/-- `normalize_company`, core. -/
def normCompanyCore (s : List Char) : List Char :=
  suffixStrip (normWsCore (stripHtmlCore s))

/-- `normalize_company(raw_company)`. -/
def normalize_company (s : String) : String :=
  ⟨normCompanyCore s.data⟩

/-- `REMOTE_VARIANTS` (all lowercase, as in the source). -/
def REMOTE_VARIANTS : List (List Char) :=
  ["remote", "anywhere", "worldwide", "global", "work from home",
   "wfh", "distributed", "remote - worldwide"].map String.data

/-- The first remote-region pattern of `normalize_location`: case-insensitive
`remote`, optional whitespace, one separator (comma, dash, slash or pipe),
optional whitespace, then a non-empty capture; returns the stripped capture,
or `none` when there is no match.  The capture (`.` repeated) cannot cross a
newline; by construction the argument is already whitespace-normalized, so it
contains none. -/
def remoteSep (t : List Char) : Option (List Char) :=
  if lowerStr (t.take 6) = "remote".data ∧ 6 ≤ t.length then
    match (t.drop 6).dropWhile isPySpace with
    | c :: rest =>
      if c = ',' || c = '-' || c = '/' || c = '|' then
        match (rest.dropWhile isPySpace).takeWhile (fun a => a != '\n') with
        | [] => none
        | region => some (pyStrip region)
      else none
    | [] => none
  else none

/-- `re.match(r"remote\s*\((.+)\)", location, re.IGNORECASE)`: the stripped
capture, which by greediness runs up to the last `)` of the string. -/
def remoteParen (t : List Char) : Option (List Char) :=
  if lowerStr (t.take 6) = "remote".data ∧ 6 ≤ t.length then
    match (t.drop 6).dropWhile isPySpace with
    | '(' :: rest =>
      match rest.reverse.dropWhile (fun a => a != ')') with
      | ')' :: revBody =>
        match revBody.reverse with
        | [] => none
        | body => some (pyStrip body)
      | _ => none
    | _ => none
  else none

/-- `normalize_location`, core (for a non-falsy raw value). -/
def normLocCore (s : List Char) : List Char :=
  let t := normWsCore (stripHtmlCore s)
  if REMOTE_VARIANTS.contains (lowerStr (pyStrip t)) then "Remote".data
  else
    match remoteSep t with
    | some region => "Remote (".data ++ region ++ [')']
    | none =>
      match remoteParen t with
      | some region => "Remote (".data ++ region ++ [')']
      | none => t

/-- `normalize_location(raw_location)`; `None` and `""` are falsy. -/
def normalize_location : Option String → Option String
  | none => none
  | some s => if s = "" then none else some ⟨normLocCore s.data⟩

/-- `raw.replace(",", "")`. -/
def stripCommas (s : List Char) : List Char := s.filter (fun c => c ≠ ',')

/-- Python `in` on strings: substring test. -/
def containsSeq (needle s : List Char) : Bool :=
  s.tails.any (fun t => needle.isPrefixOf t)

/-- Digit run to its numeric value. -/
def digitsVal (ds : List Char) : Nat :=
  ds.foldl (fun a c => a * 10 + (c.toNat - 48)) 0

/-- Value of a numeric token carrying a `k`/`K` suffix: the `* 1000` of the
source, with `int(float(...) * 1000)` idealized as exact arithmetic (integer
part times 1000 plus the first three fraction digits). -/
def kValue (ds fs : List Char) : Int :=
  digitsVal ds * 1000 + digitsVal (fs.take 3 ++ List.replicate (3 - (fs.take 3).length) '0')

/-- The optional fraction part `(?:\\.\\d+)?` after the integer digits: the
fraction digits (empty when absent) and the rest of the string. -/
def grabFrac (r1 : List Char) : List Char × List Char :=
  match r1 with
  | '.' :: rr =>
    if (rr.takeWhile Char.isDigit).isEmpty then ([], r1)
    else (rr.takeWhile Char.isDigit, rr.dropWhile Char.isDigit)
  | _ => ([], r1)

/-- The trailing `\\s*[kK]?` of a numeric token and the resulting value. -/
def grabTail (ds fs r2 : List Char) : Int × List Char :=
  match r2.dropWhile isPySpace with
  | 'k' :: r4 => (kValue ds fs, r4)
  | 'K' :: r4 => (kValue ds fs, r4)
  | r3 => ((digitsVal ds : Int), r3)

/-- One numeric-token match starting at a digit: returns the token's value
(thousands-scaled when a `k`/`K` ends the match) and the rest of the string
after the match. -/
def grabNumber (s : List Char) : Int × List Char :=
  grabTail (s.takeWhile Char.isDigit)
    (grabFrac (s.dropWhile Char.isDigit)).1
    (grabFrac (s.dropWhile Char.isDigit)).2

theorem grabFrac_rest_le (r1 : List Char) : (grabFrac r1).2.length ≤ r1.length := by
  unfold grabFrac
  split
  · rename_i rr
    split
    · simp
    · have h2 := length_dropWhile_le Char.isDigit rr
      simp
      omega
  · simp

theorem grabTail_rest_le (ds fs r2 : List Char) :
    (grabTail ds fs r2).2.length ≤ r2.length := by
  unfold grabTail
  have h1 := length_dropWhile_le isPySpace r2
  split
  · rename_i r4 heq
    rw [heq] at h1; simp at h1 ⊢; omega
  · rename_i r4 heq
    rw [heq] at h1; simp at h1 ⊢; omega
  · simpa using h1

theorem grabNumber_rest_le (s : List Char) :
    (grabNumber s).2.length ≤ (s.dropWhile Char.isDigit).length := by
  unfold grabNumber
  exact le_trans (grabTail_rest_le _ _ _) (grabFrac_rest_le _)

/-- The numeric-token scan of `extract_salary`'s `re.finditer` loop, with the
`* 1000` application of the loop body.  The fuel starts at the string length;
every step consumes at least one character, so it never runs out. -/
def findNumbersGo : Nat → List Char → List Int
  | _, [] => []
  | 0, _ => []
  | fuel + 1, c :: rest =>
    if c.isDigit then
      (grabNumber (c :: rest)).1 :: findNumbersGo fuel (grabNumber (c :: rest)).2
    else findNumbersGo fuel rest

/-- The list of parsed salary numbers of `extract_salary`. -/
def findNumbers (s : List Char) : List Int := findNumbersGo s.length s

/-- The currency-detection block of `extract_salary`: EUR markers first,
then GBP markers, else USD. -/
def currencyOf (r : List Char) : String :=
  if containsSeq "EUR".data (upperStr r) || r.contains '€' then "EUR"
  else if containsSeq "GBP".data (upperStr r) || r.contains '£' then "GBP"
  else "USD"

/-- `extract_salary(raw, salary_min, salary_max)`. -/
def extract_salary (raw : Option String) (salary_min salary_max : Option Int) :
    Option Int × Option Int × Option String :=
  if salary_min.isSome || salary_max.isSome then (salary_min, salary_max, some "USD")
  else
    match raw with
    | none => (none, none, none)
    | some s =>
      if s = "" then (none, none, none)
      else
        match findNumbers (pyStrip (stripCommas s.data)) with
        | [] => (none, none, none)
        | [n] => (some n, some n, some (currencyOf (pyStrip (stripCommas s.data))))
        | n :: ns => (some (ns.foldl min n), some (ns.foldl max n),
                      some (currencyOf (pyStrip (stripCommas s.data))))

/-- `normalize_tags`, sequence branch: strip, lower-case, drop empties,
deduplicate preserving first-seen order. -/
def normTagsGo (seen : List String) : List String → List String
  | [] => []
  | t :: rest =>
    let t' : String := ⟨lowerStr (pyStrip t.data)⟩
    if t' ≠ "" ∧ t' ∉ seen then t' :: normTagsGo (t' :: seen) rest
    else normTagsGo seen rest

/-- `normalize_tags(tags)` for a tag list. -/
def normalize_tags (tags : List String) : List String :=
  normTagsGo [] tags

/-- Pydantic `JobListing` (the fields the pipeline uses). -/
structure JobListing where
  external_id : String
  source : String
  title : String
  company : String
  location : Option String := none
  salary_min : Option Int := none
  salary_max : Option Int := none
  currency : Option String := none
  tags : List String := []
  url : Option String := none
  posted_at : Option String := none
  quality_score : Nat := 0
deriving DecidableEq, Repr

/-- Pydantic `RawJobListing`. -/
structure RawJobListing where
  external_id : String
  source : String
  title : String
  company : String
  location : Option String := none
  salary_raw : Option String := none
  salary_min : Option Int := none
  salary_max : Option Int := none
  currency : Option String := none
  tags : List String := []
  url : Option String := none
  posted_at : Option String := none
deriving DecidableEq, Repr

/-- Python truthiness of an optional string (`None` and `""` are falsy). -/
def optStrTruthy : Option String → Bool
  | none => false
  | some s => s ≠ ""

/-- Python truthiness of an optional integer (`None` and `0` are falsy). -/
def optIntTruthy : Option Int → Bool
  | none => false
  | some v => v ≠ 0

/-- `score_listing(listing)`: the additive completeness table.  Field
"presence" is the source's Python truthiness test. -/
def score_listing (l : JobListing) : Nat :=
  (if l.title ≠ "" ∧ 2 < l.title.length then 25 else 0) +
  (if l.company ≠ "" ∧ 1 < l.company.length then 25 else 0) +
  (if optStrTruthy l.url then 20 else 0) +
  (if optStrTruthy l.location then 15 else 0) +
  (if optIntTruthy l.salary_min || optIntTruthy l.salary_max then 15 else 0)

/-- The exact arithmetic mean of the per-listing scores (`sum/len` of the
source, idealized over ℚ). -/
def rawMean (ls : List JobListing) : ℚ :=
  ((ls.map score_listing).sum : ℚ) / (ls.length : ℚ)

/-- Round-half-to-even to an integer (Python's `round` mode, idealized over
exact rationals). -/
def roundHalfEven (q : ℚ) : ℤ :=
  if q - ⌊q⌋ < 1/2 then ⌊q⌋
  else if 1/2 < q - ⌊q⌋ then ⌊q⌋ + 1
  else if ⌊q⌋ % 2 = 0 then ⌊q⌋ else ⌊q⌋ + 1

/-- Python `round(x, 1)` idealized over ℚ. -/
def round1 (q : ℚ) : ℚ :=
  (roundHalfEven (q * 10) : ℚ) / 10

/-- `score_scrape(listings) -> (mean_score, issues)`. -/
def score_scrape (ls : List JobListing) : ℚ × List String :=
  if ls.isEmpty then (0, ["No listings returned"])
  else
    let scores := ls.map score_listing
    let lowQuality := scores.filter (fun s => s < 50)
    let noSalary := (ls.filter (fun l =>
      !optIntTruthy l.salary_min && !optIntTruthy l.salary_max)).length
    let noLocation := (ls.filter (fun l => !optStrTruthy l.location)).length
    let issues :=
      (if scores.length < lowQuality.length * 2 then
        [toString lowQuality.length ++ "/" ++ toString scores.length ++
          " listings scored below 50"] else []) ++
      (if noSalary = ls.length then ["No listings have salary data"] else []) ++
      (if 4 * ls.length < 5 * noLocation then
        [toString noLocation ++ "/" ++ toString ls.length ++
          " listings missing location"] else [])
    (round1 (rawMean ls), issues)

def RETRY_THRESHOLD : ℚ := 60

def REJECT_THRESHOLD : ℚ := 40

/-- `should_retry(score)`. -/
def should_retry (score : ℚ) : Bool := decide (score < RETRY_THRESHOLD)

/-- `should_reject(score)`. -/
def should_reject (score : ℚ) : Bool := decide (score < REJECT_THRESHOLD)

/-- The dict returned by `detect_changes`. -/
structure ChangeSet where
  added : Finset String
  removed : Finset String
  retained : Finset String
deriving DecidableEq

/-- `detect_changes(previous_ids, current_ids)`: pure set algebra. -/
def detect_changes (previous_ids current_ids : Finset String) : ChangeSet :=
  { added := current_ids \ previous_ids
    removed := previous_ids \ current_ids
    retained := current_ids ∩ previous_ids }

/-- The dict returned by `build_change_summary`. -/
structure ChangeSummary where
  added_count : Nat
  removed_count : Nat
  retained_count : Nat
  total_count : Nat
deriving DecidableEq, Repr

/-- `build_change_summary(changes)`. -/
def build_change_summary (c : ChangeSet) : ChangeSummary :=
  { added_count := c.added.card
    removed_count := c.removed.card
    retained_count := c.retained.card
    total_count := c.added.card + c.retained.card }

/-- A `job_listings` row.  Timestamps are clock ticks of the orchestrator
model. -/
structure PersistedListing where
  external_id : String
  source : String
  title : String := ""
  company : String := ""
  location : Option String := none
  salary_min : Option Int := none
  salary_max : Option Int := none
  currency : Option String := none
  tags : List String := []
  url : Option String := none
  posted_at : Option String := none
  first_seen : Nat := 0
  last_seen : Nat := 0
  is_active : Bool := true
  consecutive_misses : Nat := 0
  quality_score : Nat := 0
deriving DecidableEq, Repr

def REMOVAL_THRESHOLD : Nat := 3

/-- The per-row effect of `update_stability`'s loop.  The table is
`UNIQUE(external_id, source)`, so the SQL `UPDATE ... WHERE external_id = ?
AND source = ?` statements touch exactly the fetched row and the loop is a
per-row map over the active rows of the source. -/
def stabilityStep (now : Nat) (source : String) (current_ids : Finset String)
    (l : PersistedListing) : PersistedListing :=
  if l.source = source ∧ l.is_active then
    if l.external_id ∈ current_ids then
      { l with consecutive_misses := 0, last_seen := now }
    else if REMOVAL_THRESHOLD ≤ l.consecutive_misses + 1 then
      { l with consecutive_misses := l.consecutive_misses + 1, is_active := false }
    else
      { l with consecutive_misses := l.consecutive_misses + 1 }
  else l

/-- `update_stability(db, source, current_ids)`: the updated table plus the
`confirmed_removals` and `tentative_removals` id sets. -/
def update_stability (now : Nat) (rows : List PersistedListing) (source : String)
    (current_ids : Finset String) :
    List PersistedListing × Finset String × Finset String :=
  let targets := rows.filter (fun l => l.source = source && l.is_active)
  let missing := targets.filter (fun l => decide (l.external_id ∉ current_ids))
  let confirmed :=
    ((missing.filter (fun l =>
      decide (REMOVAL_THRESHOLD ≤ l.consecutive_misses + 1))).map (·.external_id)).toFinset
  let tentative :=
    ((missing.filter (fun l =>
      decide (l.consecutive_misses + 1 < REMOVAL_THRESHOLD))).map (·.external_id)).toFinset
  (rows.map (stabilityStep now source current_ids), confirmed, tentative)

/-- A `scrape_runs` row status. -/
inductive RunStatus
  | running
  | completed
  | failed
  | fallback
deriving DecidableEq, Repr

def RunStatus.isTerminal : RunStatus → Bool
  | .running => false
  | _ => true

/-- A `scrape_runs` row (schema defaults: `status 'running'`,
`quality_score 0`, counts 0, `completed_at NULL`). -/
structure RunRecord where
  source : String
  started_at : Nat
  completed_at : Option Nat := none
  status : RunStatus := .running
  quality_score : ℚ := 0
  total_count : Nat := 0
  added_count : Nat := 0
  removed_count : Nat := 0
  retained_count : Nat := 0
deriving DecidableEq, Repr

/-- The SQLite database, threaded explicitly; `clock` models
`datetime.utcnow()` as a monotone tick counter. -/
structure DBState where
  runs : List RunRecord := []
  listings : List PersistedListing := []
  clock : Nat := 0
deriving DecidableEq, Repr

/-- `SELECT ... FROM job_listings WHERE source = ? AND is_active = 1`. -/
def activeListings (db : DBState) (source : String) : List PersistedListing :=
  db.listings.filter (fun l => l.source = source && l.is_active)

/-- `get_last_successful_scrape(db, source)`: `None` when no completed run
with quality ≥ 60 exists or no active listings remain; otherwise the live
active listing set of the source. -/
def get_last_successful_scrape (db : DBState) (source : String) :
    Option (List PersistedListing) :=
  if (db.runs.filter (fun r => r.source = source && r.status = RunStatus.completed
        && decide ((60 : ℚ) ≤ r.quality_score))).isEmpty then none
  else if (activeListings db source).isEmpty then none
  else some (activeListings db source)

/-- `record_fallback_usage(db, source, reason)`: inserts a new
`scrape_runs` row with status `'fallback'` and quality 0 (the `reason`
argument is not stored — the insert has no such column). -/
def record_fallback_usage (db : DBState) (source : String) (_reason : String) : DBState :=
  { db with
      runs := db.runs ++ [{ source := source, started_at := db.clock,
                            completed_at := some db.clock, status := .fallback,
                            quality_score := 0 }]
      clock := db.clock + 1 }

/-- The normalize step of `_run_scrape`'s per-listing loop, including the
`score_listing` assignment. -/
def normalizeRaw (raw : RawJobListing) : JobListing :=
  let sal := extract_salary raw.salary_raw raw.salary_min raw.salary_max
  let l : JobListing :=
    { external_id := raw.external_id
      source := raw.source
      title := normalize_title raw.title
      company := normalize_company raw.company
      location := normalize_location raw.location
      salary_min := sal.1
      salary_max := sal.2.1
      currency := sal.2.2
      tags := normalize_tags raw.tags
      url := raw.url
      posted_at := raw.posted_at }
  { l with quality_score := score_listing l }

/-- The per-source entry of the `results` dict returned by `_run_scrape`. -/
inductive SourceOutcome
  | completed (quality_score : ℚ) (total added removed tentative_removals : Nat)
  | fallbackUsed (score : ℚ) (listings_count : Nat)
  | failed (error : String)
deriving DecidableEq, Repr

/-- The freshly inserted `scrape_runs` row:
`INSERT INTO scrape_runs (source, started_at, status) VALUES (?, ?, 'running')`. -/
def mkRunningRecord (source : String) (t : Nat) : RunRecord :=
  { source := source, started_at := t }

/-- The final `UPDATE scrape_runs SET ... WHERE source = ? AND started_at = ?`
applied to one row. -/
def finalizeRun (source : String) (t0 tDone : Nat) (mean : ℚ) (s : ChangeSummary)
    (r : RunRecord) : RunRecord :=
  if r.source = source ∧ r.started_at = t0 then
    { r with completed_at := some tDone, status := .completed, quality_score := mean,
             total_count := s.total_count, added_count := s.added_count,
             removed_count := s.removed_count, retained_count := s.retained_count }
  else r

/-- One `INSERT ... ON CONFLICT(external_id, source) DO UPDATE` upsert:
on conflict the identity fields, `posted_at` and `first_seen` are kept and
the rest refreshed; otherwise a new active row is appended. -/
def upsertOne (now : Nat) (l : JobListing) (rows : List PersistedListing) :
    List PersistedListing :=
  if rows.any (fun p => p.external_id = l.external_id && p.source = l.source) then
    rows.map (fun p =>
      if p.external_id = l.external_id ∧ p.source = l.source then
        { p with title := l.title, company := l.company, location := l.location,
                 salary_min := l.salary_min, salary_max := l.salary_max,
                 currency := l.currency, tags := l.tags, url := l.url,
                 last_seen := now, is_active := true, consecutive_misses := 0,
                 quality_score := l.quality_score }
      else p)
  else
    rows ++ [{ external_id := l.external_id, source := l.source, title := l.title,
               company := l.company, location := l.location,
               salary_min := l.salary_min, salary_max := l.salary_max,
               currency := l.currency, tags := l.tags, url := l.url,
               posted_at := l.posted_at, first_seen := now, last_seen := now,
               is_active := true, consecutive_misses := 0,
               quality_score := l.quality_score }]

/-- One iteration of `_run_scrape`'s per-source loop.  The fetch collaborator
is a parameter; a raised `FetchFailure` (or any other exception from the
strategy) is an `Except.error` caught at the per-source boundary. -/
def runSource (fetch : String → Except String (List RawJobListing)) (db : DBState)
    (source : String) : DBState × SourceOutcome :=
  let t0 := db.clock
  let db1 : DBState := { db with runs := db.runs ++ [mkRunningRecord source t0],
                                 clock := t0 + 1 }
  match fetch source with
  | .error e => (db1, .failed e)
  | .ok raws =>
    let normalized := raws.map normalizeRaw
    let mean := (score_scrape normalized).1
    if should_reject mean then
      let fb := get_last_successful_scrape db1 source
      let db2 := record_fallback_usage db1 source "below threshold"
      (db2, .fallbackUsed mean (match fb with | some L => L.length | none => 0))
    else
      let previous_ids := ((activeListings db1 source).map (·.external_id)).toFinset
      let current_ids := (normalized.map (·.external_id)).toFinset
      let summary := build_change_summary (detect_changes previous_ids current_ids)
      let stab := update_stability db1.clock db1.listings source current_ids
      let rows3 := normalized.foldl (fun acc l => upsertOne (db1.clock + 1) l acc) stab.1
      let tDone := db1.clock + 2
      let db4 : DBState := { runs := db1.runs.map (finalizeRun source t0 tDone mean summary),
                             listings := rows3, clock := tDone + 1 }
      (db4, .completed mean summary.total_count summary.added_count
              stab.2.1.card stab.2.2.card)

/-- `_run_scrape(sources)`: the sequential per-source loop with failure
isolation; returns the final state and the per-source outcome map. -/
def runScrape (fetch : String → Except String (List RawJobListing)) (db : DBState) :
    List String → DBState × List (String × SourceOutcome)
  | [] => (db, [])
  | s :: rest =>
    let step := runSource fetch db s
    let further := runScrape fetch step.1 rest
    (further.1, (s, step.2) :: further.2)

/-- A raw listing normalizing to quality 0 (all scored fields absent). -/
def emptyRaw : RawJobListing :=
  { external_id := "z", source := "s", title := "", company := "" }

/-- A raw listing normalizing to quality 100 (all scored fields present). -/
def fullRaw (eid : String) : RawJobListing :=
  { external_id := eid, source := "x", title := "Backend Wizard", company := "Initech",
    location := some "Berlin", salary_min := some 50000,
    url := some "https://jobs.example/1" }

/-! ## Claim theorems -/

/-- Presence of the title field as `score_listing` tests it. -/
abbrev presTitle (l : JobListing) : Prop := l.title ≠ "" ∧ 2 < l.title.length

/-- Presence of the company field as `score_listing` tests it. -/
abbrev presCompany (l : JobListing) : Prop := l.company ≠ "" ∧ 1 < l.company.length

/-- Presence of the url field as `score_listing` tests it. -/
abbrev presUrl (l : JobListing) : Prop := optStrTruthy l.url = true

/-- Presence of the location field as `score_listing` tests it. -/
abbrev presLocation (l : JobListing) : Prop := optStrTruthy l.location = true

/-- Presence of a salary bound as `score_listing` tests it. -/
abbrev presSalary (l : JobListing) : Prop :=
  (optIntTruthy l.salary_min || optIntTruthy l.salary_max) = true

theorem ite_score_le (A B : Prop) [Decidable A] [Decidable B] (h : A → B) (n : Nat) :
    (if A then n else 0) ≤ (if B then n else 0) := by
  by_cases hb : B
  · rw [if_pos hb]
    split <;> omega
  · rw [if_neg hb, if_neg (fun ha => hb (h ha))]

/-- C7: `score_listing` is exactly the additive presence table
(25/25/20/15/15), hence bounded by 100; a record with all scored fields
present scores exactly 100; the empty record scores 0; and the score is
monotone in field presence. -/
theorem C7_score_listing_table :
    (∀ l : JobListing, score_listing l =
      (if presTitle l then 25 else 0) + (if presCompany l then 25 else 0) +
      (if presUrl l then 20 else 0) + (if presLocation l then 15 else 0) +
      (if presSalary l then 15 else 0)) ∧
    (∀ l : JobListing, score_listing l ≤ 100) ∧
    (∀ l : JobListing, presTitle l → presCompany l → presUrl l → presLocation l →
      presSalary l → score_listing l = 100) ∧
    score_listing { external_id := "e", source := "s", title := "", company := "" } = 0 ∧
    (∀ l l' : JobListing, (presTitle l → presTitle l') → (presCompany l → presCompany l') →
      (presUrl l → presUrl l') → (presLocation l → presLocation l') →
      (presSalary l → presSalary l') → score_listing l ≤ score_listing l') := by
  refine ⟨fun l => rfl, fun l => ?_, fun l h1 h2 h3 h4 h5 => ?_, by decide, ?_⟩
  · unfold score_listing
    split <;> split <;> split <;> split <;> split <;> omega
  · unfold score_listing
    rw [if_pos h1, if_pos h2, if_pos h3, if_pos h4, if_pos h5]
  · intro l l' h1 h2 h3 h4 h5
    unfold score_listing
    exact Nat.add_le_add (Nat.add_le_add (Nat.add_le_add (Nat.add_le_add
      (ite_score_le _ _ h1 25) (ite_score_le _ _ h2 25)) (ite_score_le _ _ h3 20))
      (ite_score_le _ _ h4 15)) (ite_score_le _ _ h5 15)

/-- Witness for C7 at concrete records: a full record scores 100 and the
monotonicity instance holds for an empty versus a full record. -/
theorem C7_score_listing_table_witness :
    score_listing { external_id := "e", source := "s", title := "abc", company := "co",
                    url := some "u", location := some "x", salary_min := some 1 } = 100 ∧
    score_listing { external_id := "e", source := "s", title := "", company := "" } ≤
      score_listing { external_id := "e", source := "s", title := "abc", company := "co",
                      url := some "u", location := some "x", salary_min := some 1 } := by
  constructor
  · exact C7_score_listing_table.2.2.1 _ (by decide) (by decide) (by decide) (by decide)
      (by decide)
  · exact C7_score_listing_table.2.2.2.2 _ _ (by decide) (by decide) (by decide) (by decide)
      (by decide)

/-- C9: the change-detector diff satisfies `added ∪ retained = current`,
`removed ∪ retained = previous`, `added ∩ removed = ∅`, and the summary
reports `total_count = |added| + |retained|` alongside the three component
counts. -/
theorem C9_detect_changes_algebra (P C : Finset String) :
    (detect_changes P C).added ∪ (detect_changes P C).retained = C ∧
    (detect_changes P C).removed ∪ (detect_changes P C).retained = P ∧
    (detect_changes P C).added ∩ (detect_changes P C).removed = ∅ ∧
    (build_change_summary (detect_changes P C)).total_count =
      (detect_changes P C).added.card + (detect_changes P C).retained.card ∧
    (build_change_summary (detect_changes P C)).added_count =
      (detect_changes P C).added.card ∧
    (build_change_summary (detect_changes P C)).removed_count =
      (detect_changes P C).removed.card ∧
    (build_change_summary (detect_changes P C)).retained_count =
      (detect_changes P C).retained.card := by
  refine ⟨?_, ?_, ?_, rfl, rfl, rfl, rfl⟩
  · show C \ P ∪ C ∩ P = C
    exact Finset.sdiff_union_inter C P
  · show P \ C ∪ C ∩ P = P
    rw [Finset.inter_comm]
    exact Finset.sdiff_union_inter P C
  · show (C \ P) ∩ (P \ C) = ∅
    ext x
    simp only [Finset.mem_inter, Finset.mem_sdiff, Finset.not_mem_empty, iff_false]
    tauto

/-- C8: `get_last_successful_scrape` returns `None` exactly when no completed
run with quality ≥ 60 exists for the source or no active listing remains;
otherwise it returns the full live active set, never an empty list. -/
theorem C8_get_last_successful_scrape (db : DBState) (source : String) :
    (get_last_successful_scrape db source = none ↔
      (¬ ∃ r ∈ db.runs, r.source = source ∧ r.status = RunStatus.completed ∧
        (60 : ℚ) ≤ r.quality_score) ∨
      (¬ ∃ l ∈ db.listings, l.source = source ∧ l.is_active = true)) ∧
    (∀ L, get_last_successful_scrape db source = some L →
      L = activeListings db source ∧ L ≠ []) := by
  unfold get_last_successful_scrape
  constructor
  · split
    · rename_i hrun
      rw [List.isEmpty_iff, List.filter_eq_nil_iff] at hrun
      simp only [true_iff]
      left
      rintro ⟨r, hr, h1, h2, h3⟩
      exact (hrun r hr) (by simp [h1, h2, h3])
    · rename_i hrun
      rw [List.isEmpty_iff] at hrun
      split
      · rename_i hrows
        rw [List.isEmpty_iff] at hrows
        simp only [true_iff]
        right
        rintro ⟨l, hl, h1, h2⟩
        have hmem : l ∈ activeListings db source := by
          simp [activeListings, List.mem_filter, hl, h1, h2]
        rw [hrows] at hmem
        simp at hmem
      · rename_i hrows
        rw [List.isEmpty_iff] at hrows
        simp only [reduceCtorEq, false_iff, not_or, not_not]
        constructor
        · rcases List.exists_mem_of_ne_nil _ hrun with ⟨r, hr⟩
          have hr2 := List.mem_filter.mp hr
          refine ⟨r, hr2.1, ?_⟩
          have h3 := hr2.2
          simp only [Bool.and_eq_true, decide_eq_true_eq] at h3
          exact ⟨h3.1.1, h3.1.2, h3.2⟩
        · rcases List.exists_mem_of_ne_nil _ hrows with ⟨l, hl⟩
          have hl2 := List.mem_filter.mp hl
          refine ⟨l, hl2.1, ?_⟩
          have h3 := hl2.2
          simp only [Bool.and_eq_true, decide_eq_true_eq] at h3
          exact h3
  · intro L hL
    split at hL
    · exact absurd hL (by simp)
    · split at hL
      · exact absurd hL (by simp)
      · rename_i hrows
        rw [List.isEmpty_iff] at hrows
        simp only [Option.some.injEq] at hL
        exact ⟨hL.symm, hL ▸ hrows⟩

/-- Witness for C8: a database with one qualifying run and one active listing
yields exactly the active set. -/
theorem C8_get_last_successful_scrape_witness :
    get_last_successful_scrape
      { runs := [{ source := "s", started_at := 0, completed_at := some 1,
                   status := RunStatus.completed, quality_score := 80 }],
        listings := [{ external_id := "a", source := "s" }], clock := 2 } "s" =
      some [{ external_id := "a", source := "s" }] ∧
    [({ external_id := "a", source := "s" } : PersistedListing)] ≠ [] := by
  have h := (C8_get_last_successful_scrape
      { runs := [{ source := "s", started_at := 0, completed_at := some 1,
                   status := RunStatus.completed, quality_score := 80 }],
        listings := [{ external_id := "a", source := "s" }], clock := 2 } "s").2
  have hval : get_last_successful_scrape
      { runs := [{ source := "s", started_at := 0, completed_at := some 1,
                   status := RunStatus.completed, quality_score := 80 }],
        listings := [{ external_id := "a", source := "s" }], clock := 2 } "s" =
      some [{ external_id := "a", source := "s" }] := by decide
  refine ⟨hval, ?_⟩
  have h2 := h _ hval
  exact h2.2

/-- C4: the stability transition for every previously-active listing of the
source: present resets `consecutive_misses` to 0 and refreshes `last_seen`;
absent at `misses = 2` becomes a confirmed removal (`is_active = false`,
`misses = 3`); absent at `misses = 0` becomes a tentative removal
(`misses = 1`, still active). -/
theorem C4_update_stability_transitions (now : Nat) (rows : List PersistedListing)
    (source : String) (current : Finset String) (l : PersistedListing)
    (hmem : l ∈ rows) (hsrc : l.source = source) (hact : l.is_active = true) :
    (l.external_id ∈ current →
      { l with consecutive_misses := 0, last_seen := now } ∈
        (update_stability now rows source current).1) ∧
    (l.external_id ∉ current → l.consecutive_misses = 2 →
      ({ l with consecutive_misses := 3, is_active := false } ∈
        (update_stability now rows source current).1 ∧
       l.external_id ∈ (update_stability now rows source current).2.1)) ∧
    (l.external_id ∉ current → l.consecutive_misses = 0 →
      ({ l with consecutive_misses := 1 } ∈
        (update_stability now rows source current).1 ∧
       ({ l with consecutive_misses := 1 } : PersistedListing).is_active = true ∧
       l.external_id ∈ (update_stability now rows source current).2.2)) := by
  have hstep : ∀ x : PersistedListing,
      stabilityStep now source current l = x →
      x ∈ (update_stability now rows source current).1 := by
    intro x hx
    unfold update_stability
    exact hx ▸ List.mem_map_of_mem (stabilityStep now source current) hmem
  have htarget : l ∈ rows.filter (fun l => l.source = source && l.is_active) :=
    List.mem_filter.mpr ⟨hmem, by simp [hsrc, hact]⟩
  refine ⟨fun hin => ?_, fun hout hm => ⟨?_, ?_⟩, fun hout hm => ⟨?_, ?_, ?_⟩⟩
  · exact hstep _ (by unfold stabilityStep; rw [if_pos ⟨hsrc, hact⟩, if_pos hin])
  · refine hstep _ ?_
    unfold stabilityStep
    rw [if_pos ⟨hsrc, hact⟩, if_neg hout, if_pos (by unfold REMOVAL_THRESHOLD; omega)]
    simp [hm]
  · unfold update_stability
    simp only [List.mem_toFinset, List.mem_map]
    refine ⟨l, List.mem_filter.mpr ⟨List.mem_filter.mpr ⟨htarget, ?_⟩, ?_⟩, rfl⟩
    · simp [hout]
    · simp [hm, REMOVAL_THRESHOLD]
  · refine hstep _ ?_
    unfold stabilityStep
    rw [if_pos ⟨hsrc, hact⟩, if_neg hout,
        if_neg (by unfold REMOVAL_THRESHOLD; omega), hm]
  · simp [hact]
  · unfold update_stability
    simp only [List.mem_toFinset, List.mem_map]
    refine ⟨l, List.mem_filter.mpr ⟨List.mem_filter.mpr ⟨htarget, ?_⟩, ?_⟩, rfl⟩
    · simp [hout]
    · simp [hm, REMOVAL_THRESHOLD]

/-- Witness for C4 on a concrete three-row table: one present row, one absent
at the threshold boundary, one absent and fresh. -/
theorem C4_update_stability_transitions_witness :
    ({ external_id := "a", source := "s", consecutive_misses := 0, last_seen := 9 } :
        PersistedListing) ∈
      (update_stability 9
        [{ external_id := "a", source := "s" },
         { external_id := "b", source := "s", consecutive_misses := 2 },
         { external_id := "c", source := "s" }] "s" {"a"}).1 ∧
    ({ external_id := "b", source := "s", consecutive_misses := 3, is_active := false } :
        PersistedListing) ∈
      (update_stability 9
        [{ external_id := "a", source := "s" },
         { external_id := "b", source := "s", consecutive_misses := 2 },
         { external_id := "c", source := "s" }] "s" {"a"}).1 ∧
    "b" ∈ (update_stability 9
        [{ external_id := "a", source := "s" },
         { external_id := "b", source := "s", consecutive_misses := 2 },
         { external_id := "c", source := "s" }] "s" {"a"}).2.1 ∧
    "c" ∈ (update_stability 9
        [{ external_id := "a", source := "s" },
         { external_id := "b", source := "s", consecutive_misses := 2 },
         { external_id := "c", source := "s" }] "s" {"a"}).2.2 := by
  refine ⟨?_, ?_, ?_, ?_⟩
  · exact (C4_update_stability_transitions 9 _ "s" {"a"}
      { external_id := "a", source := "s" } (by simp) rfl rfl).1 (by decide)
  · exact ((C4_update_stability_transitions 9 _ "s" {"a"}
      { external_id := "b", source := "s", consecutive_misses := 2 }
      (by simp) rfl rfl).2.1 (by decide) rfl).1
  · exact ((C4_update_stability_transitions 9 _ "s" {"a"}
      { external_id := "b", source := "s", consecutive_misses := 2 }
      (by simp) rfl rfl).2.1 (by decide) rfl).2
  · exact ((C4_update_stability_transitions 9 _ "s" {"a"}
      { external_id := "c", source := "s" }
      (by simp) rfl rfl).2.2 (by decide) rfl).2.2

theorem takeWhile_append_all (p : Char → Bool) (w r : List Char)
    (h : ∀ c ∈ w, p c = true) :
    List.takeWhile p (w ++ r) = w ++ List.takeWhile p r := by
  induction w with
  | nil => simp
  | cons c t ih =>
    simp [List.takeWhile_cons, h c (by simp), ih (fun x hx => h x (by simp [hx]))]

theorem dropWhile_append_all (p : Char → Bool) (w r : List Char)
    (h : ∀ c ∈ w, p c = true) :
    List.dropWhile p (w ++ r) = List.dropWhile p r := by
  induction w with
  | nil => simp
  | cons c t ih =>
    simp only [List.cons_append, List.dropWhile_cons, h c (by simp)]
    exact ih (fun x hx => h x (by simp [hx]))

theorem dropWhile_head_neg (p : Char → Bool) (c : Char) (t : List Char)
    (h : p c = false) : List.dropWhile p (c :: t) = c :: t := by
  simp [List.dropWhile_cons, h]

theorem takeWhile_head_neg (p : Char → Bool) (c : Char) (t : List Char)
    (h : p c = false) : List.takeWhile p (c :: t) = [] := by
  simp [List.takeWhile_cons, h]

theorem isPySpace_not_digit (c : Char) (h : isPySpace c = true) : c.isDigit = false := by
  simp only [isPySpace, Bool.or_eq_true, decide_eq_true_eq] at h
  rcases h with ((((h | h) | h) | h) | h) | h <;> subst h <;> decide

theorem isPySpace_ne_dot (c : Char) (h : isPySpace c = true) : c ≠ '.' := by
  simp only [isPySpace, Bool.or_eq_true, decide_eq_true_eq] at h
  rcases h with ((((h | h) | h) | h) | h) | h <;> subst h <;> decide

theorem foldl_min_mem (n : Int) (ns : List Int) : ns.foldl min n ∈ n :: ns := by
  induction ns generalizing n with
  | nil => simp
  | cons a t ih =>
    simp only [List.foldl_cons]
    rcases List.mem_cons.mp (ih (min n a)) with h | h
    · rw [List.mem_cons, h]
      rcases min_choice n a with hm | hm <;> rw [hm] <;> simp
    · simp [h]

theorem foldl_min_le (n : Int) (ns : List Int) : ∀ x ∈ n :: ns, ns.foldl min n ≤ x := by
  induction ns generalizing n with
  | nil => intro x hx; simp at hx; simp [hx]
  | cons a t ih =>
    intro x hx
    simp only [List.foldl_cons]
    have hbase := ih (min n a) (min n a) (by simp)
    rcases List.mem_cons.mp hx with h | h
    · subst h; exact le_trans hbase (min_le_left _ _)
    · rcases List.mem_cons.mp h with h2 | h2
      · subst h2; exact le_trans hbase (min_le_right _ _)
      · exact ih (min n a) x (by simp [h2])

theorem foldl_max_mem (n : Int) (ns : List Int) : ns.foldl max n ∈ n :: ns := by
  induction ns generalizing n with
  | nil => simp
  | cons a t ih =>
    simp only [List.foldl_cons]
    rcases List.mem_cons.mp (ih (max n a)) with h | h
    · rw [List.mem_cons, h]
      rcases max_choice n a with hm | hm <;> rw [hm] <;> simp
    · simp [h]

theorem foldl_max_ge (n : Int) (ns : List Int) : ∀ x ∈ n :: ns, x ≤ ns.foldl max n := by
  induction ns generalizing n with
  | nil => intro x hx; simp at hx; simp [hx]
  | cons a t ih =>
    intro x hx
    simp only [List.foldl_cons]
    have hbase := ih (max n a) (max n a) (by simp)
    rcases List.mem_cons.mp hx with h | h
    · subst h; exact le_trans (le_max_left _ _) hbase
    · rcases List.mem_cons.mp h with h2 | h2
      · subst h2; exact le_trans (le_max_right _ _) hbase
      · exact ih (max n a) x (by simp [h2])

theorem findNumbers_token_k (ds w : List Char) (hds : ds ≠ [])
    (hdig : ∀ c ∈ ds, c.isDigit = true) (hw : ∀ c ∈ w, isPySpace c = true) :
    findNumbers (ds ++ w ++ ['k']) = [(digitsVal ds : Int) * 1000] ∧
    findNumbers ds = [(digitsVal ds : Int)] := by
  have hheadk : List.takeWhile Char.isDigit (w ++ ['k']) = [] := by
    cases w with
    | nil => exact takeWhile_head_neg _ _ _ (by decide)
    | cons c rest =>
      exact takeWhile_head_neg _ _ _ (isPySpace_not_digit c (hw c (by simp)))
  have hdropk : List.dropWhile Char.isDigit (w ++ ['k']) = w ++ ['k'] := by
    cases w with
    | nil => exact dropWhile_head_neg _ _ _ (by decide)
    | cons c rest =>
      exact dropWhile_head_neg _ _ _ (isPySpace_not_digit c (hw c (by simp)))
  have hzero : digitsVal (List.take 3 ([] : List Char) ++
      List.replicate (3 - (List.take 3 ([] : List Char)).length) '0') = 0 := by decide
  have hfrk : grabFrac (w ++ ['k']) = ([], w ++ ['k']) := by
    cases w with
    | nil => rfl
    | cons c rest =>
      have hc : c ≠ '.' := isPySpace_ne_dot c (hw c (by simp))
      unfold grabFrac
      split
      · rename_i rr heq
        rw [List.cons_append] at heq
        exact absurd (List.head_eq_of_cons_eq heq.symm).symm hc
      · rfl
  have hwsk : List.dropWhile isPySpace (w ++ ['k']) = ['k'] := by
    rw [dropWhile_append_all isPySpace w ['k'] hw]
    exact dropWhile_head_neg _ _ _ (by decide)
  constructor
  · cases ds with
    | nil => exact absurd rfl hds
    | cons d dt =>
      have hd : d.isDigit = true := hdig d (by simp)
      have hshape : (d :: dt) ++ w ++ ['k'] = d :: (dt ++ (w ++ ['k'])) := by simp
      rw [hshape]
      have happ : d :: (dt ++ (w ++ ['k'])) = (d :: dt) ++ (w ++ ['k']) := by simp
      have htake : List.takeWhile Char.isDigit (d :: (dt ++ (w ++ ['k']))) = d :: dt := by
        rw [happ, takeWhile_append_all Char.isDigit (d :: dt) _ hdig, hheadk]
        simp
      have hdrop : List.dropWhile Char.isDigit (d :: (dt ++ (w ++ ['k']))) =
          w ++ ['k'] := by
        rw [happ, dropWhile_append_all Char.isDigit (d :: dt) _ hdig, hdropk]
      have hgrab : grabNumber (d :: (dt ++ (w ++ ['k']))) = (kValue (d :: dt) [], []) := by
        unfold grabNumber
        rw [htake, hdrop, hfrk]
        unfold grabTail
        simp only
        rw [hwsk]
        rfl
      unfold findNumbers
      rw [show (d :: (dt ++ (w ++ ['k']))).length = (dt ++ (w ++ ['k'])).length + 1 from
        rfl]
      unfold findNumbersGo
      rw [if_pos hd, hgrab]
      simp only
      rw [show findNumbersGo (dt ++ (w ++ ['k'])).length [] = [] by
        unfold findNumbersGo; cases (dt ++ (w ++ ['k'])).length <;> rfl]
      simp only [kValue, hzero, List.cons.injEq, and_true]
      push_cast
      ring
  · cases ds with
    | nil => exact absurd rfl hds
    | cons d dt =>
      have hd : d.isDigit = true := hdig d (by simp)
      have htake : List.takeWhile Char.isDigit (d :: dt) = d :: dt := by
        have h2 := takeWhile_append_all Char.isDigit (d :: dt) [] hdig
        simpa using h2
      have hdrop : List.dropWhile Char.isDigit (d :: dt) = [] := by
        have h2 := dropWhile_append_all Char.isDigit (d :: dt) [] hdig
        simpa using h2
      have hgrab : grabNumber (d :: dt) = ((digitsVal (d :: dt) : Int), []) := by
        unfold grabNumber
        rw [htake, hdrop]
        rfl
      unfold findNumbers
      rw [show (d :: dt).length = dt.length + 1 from rfl]
      unfold findNumbersGo
      rw [if_pos hd, hgrab]
      simp only
      rw [show findNumbersGo dt.length [] = [] by
        unfold findNumbersGo; cases dt.length <;> rfl]

/-- C6 counterexample: in `"100 k"` the `k` is separated from the number by a
space, so by the claim the token must not be scaled; the code scales it to
100000 because the regex `\s*[kK]?` lets the suffix follow across
whitespace. -/
theorem C6_extract_salary_counterexample :
    extract_salary (some "100 k") none none =
      (some 100000, some 100000, some "USD") ∧
    ((some (100000 : Int), some (100000 : Int), some ("USD" : String)) ≠
      (some (100 : Int), some (100 : Int), some ("USD" : String))) := by
  constructor
  · decide
  · decide

/-- C6 amended: `extract_salary` trusts structured bounds unchanged with USD;
with no usable text it returns `(None, None, None)`; otherwise it parses the
comma-stripped, stripped text, detects EUR/GBP/USD markers, and returns the
minimum and maximum of the parsed numbers (both equal for a single number);
a numeric token is multiplied by 1000 when a `k`/`K` suffix follows it,
possibly after whitespace (not only immediately). -/
theorem C6_extract_salary_amended :
    (∀ (raw : Option String) (smin smax : Option Int), smin.isSome ∨ smax.isSome →
       extract_salary raw smin smax = (smin, smax, some "USD")) ∧
    (extract_salary none none none = (none, none, none) ∧
     extract_salary (some "") none none = (none, none, none)) ∧
    (∀ s : String, s ≠ "" →
       (findNumbers (pyStrip (stripCommas s.data)) = [] →
          extract_salary (some s) none none = (none, none, none)) ∧
       (∀ n, findNumbers (pyStrip (stripCommas s.data)) = [n] →
          extract_salary (some s) none none =
            (some n, some n, some (currencyOf (pyStrip (stripCommas s.data))))) ∧
       (∀ n ns, findNumbers (pyStrip (stripCommas s.data)) = n :: ns → ns ≠ [] →
          ∃ mn mx, extract_salary (some s) none none =
              (some mn, some mx, some (currencyOf (pyStrip (stripCommas s.data)))) ∧
            mn ∈ n :: ns ∧ mx ∈ n :: ns ∧
            (∀ x ∈ n :: ns, mn ≤ x ∧ x ≤ mx))) ∧
    (∀ r : List Char, (containsSeq "EUR".data (upperStr r) || r.contains '€') = true →
        currencyOf r = "EUR") ∧
    (∀ r : List Char, (containsSeq "EUR".data (upperStr r) || r.contains '€') = false →
        (containsSeq "GBP".data (upperStr r) || r.contains '£') = true →
        currencyOf r = "GBP") ∧
    (∀ r : List Char, (containsSeq "EUR".data (upperStr r) || r.contains '€') = false →
        (containsSeq "GBP".data (upperStr r) || r.contains '£') = false →
        currencyOf r = "USD") ∧
    (∀ ds w : List Char, ds ≠ [] → (∀ c ∈ ds, c.isDigit = true) →
        (∀ c ∈ w, isPySpace c = true) →
        findNumbers (ds ++ w ++ ['k']) = [(digitsVal ds : Int) * 1000] ∧
        findNumbers ds = [(digitsVal ds : Int)]) := by
  refine ⟨?_, ⟨rfl, rfl⟩, ?_, ?_, ?_, ?_, findNumbers_token_k⟩
  · intro raw smin smax h
    unfold extract_salary
    rw [if_pos (by rcases h with h | h <;> simp [h])]
  · intro s hs
    have hbranch : ∀ out, (match findNumbers (pyStrip (stripCommas s.data)) with
        | [] => ((none : Option Int), (none : Option Int), (none : Option String))
        | [n] => (some n, some n, some (currencyOf (pyStrip (stripCommas s.data))))
        | n :: ns => (some (ns.foldl min n), some (ns.foldl max n),
                      some (currencyOf (pyStrip (stripCommas s.data))))) = out →
        extract_salary (some s) none none = out := by
      intro out hout
      simp only [extract_salary, Option.isSome_none, Bool.or_self, Bool.false_eq_true,
        if_false, hs, if_neg]
      exact hout
    refine ⟨fun hf => hbranch _ (by rw [hf]), fun n hf => hbranch _ (by rw [hf]), ?_⟩
    intro n ns hf hne
    cases ns with
    | nil => exact absurd rfl hne
    | cons a t =>
      refine ⟨(a :: t).foldl min n, (a :: t).foldl max n,
        hbranch _ (by rw [hf]), foldl_min_mem n (a :: t), foldl_max_mem n (a :: t),
        fun x hx => ⟨foldl_min_le n (a :: t) x hx, foldl_max_ge n (a :: t) x hx⟩⟩
  · intro r h
    unfold currencyOf
    rw [if_pos h]
  · intro r h1 h2
    unfold currencyOf
    rw [if_neg (by rw [h1]; decide), if_pos h2]
  · intro r h1 h2
    unfold currencyOf
    rw [if_neg (by rw [h1]; decide), if_neg (by rw [h2]; decide)]

/-- Witness for C6 at concrete inputs: structured bounds pass through, a
single number duplicates, two numbers give min and max, and the k-rule fires
across a space. -/
theorem C6_extract_salary_amended_witness :
    extract_salary (some "ignored") (some 70000) none = (some 70000, none, some "USD") ∧
    extract_salary (some "55") none none = (some 55, some 55, some "USD") ∧
    (∃ mn mx, extract_salary (some "80 - 120") none none =
        (some mn, some mx, some "USD") ∧
      mn ∈ [(80 : Int), 120] ∧ mx ∈ [(80 : Int), 120] ∧
      (∀ x ∈ [(80 : Int), 120], mn ≤ x ∧ x ≤ mx)) ∧
    findNumbers ("100".data ++ [' '] ++ ['k']) = [(100000 : Int)] := by
  refine ⟨?_, ?_, ?_, ?_⟩
  · exact C6_extract_salary_amended.1 (some "ignored") (some 70000) none (by simp)
  · have h := ((C6_extract_salary_amended.2.2.1 "55" (by decide)).2.1) 55 (by decide)
    simpa using h
  · have h := ((C6_extract_salary_amended.2.2.1 "80 - 120" (by decide)).2.2) 80 [120]
      (by decide) (by decide)
    rcases h with ⟨mn, mx, h1, h2, h3, h4⟩
    exact ⟨mn, mx, by simpa using h1, by simpa using h2, by simpa using h3,
      by simpa using h4⟩
  · have h := (C6_extract_salary_amended.2.2.2.2.2.2 "100".data [' ']
      (by decide) (by decide) (by decide)).1
    have hv : digitsVal "100".data = 100 := by decide
    rw [hv] at h
    simpa using h

theorem map_finalize_id (source : String) (t0 tD : Nat) (mean : ℚ) (s : ChangeSummary)
    (l : List RunRecord) (h : ∀ r ∈ l, ¬(r.source = source ∧ r.started_at = t0)) :
    l.map (finalizeRun source t0 tD mean s) = l := by
  induction l with
  | nil => rfl
  | cons r t ih =>
    simp only [List.map_cons]
    rw [show finalizeRun source t0 tD mean s r = r by
      unfold finalizeRun; rw [if_neg (h r (by simp))]]
    rw [ih (fun x hx => h x (by simp [hx]))]

/-- C10: the gate is evaluated on the rounded mean: `score_scrape` returns
the arithmetic mean rounded to one decimal, and for every non-empty run
whose exact mean lies in `[39.95, 40)` the rounded score is `40.0`, so
`should_reject` is false and the orchestrator publishes the run instead of
falling back. -/
theorem C10_rounded_gate :
    (∀ ls : List JobListing, ls ≠ [] →
       (score_scrape ls).1 = round1 (rawMean ls)) ∧
    (∀ ls : List JobListing, ls ≠ [] → (3995 / 100 : ℚ) ≤ rawMean ls →
       rawMean ls < 40 →
       (score_scrape ls).1 = 40 ∧ should_reject ((score_scrape ls).1) = false) ∧
    (∀ (fetch : String → Except String (List RawJobListing)) (db : DBState)
       (source : String) (raws : List RawJobListing), fetch source = .ok raws →
       raws ≠ [] → (3995 / 100 : ℚ) ≤ rawMean (raws.map normalizeRaw) →
       rawMean (raws.map normalizeRaw) < 40 →
       ∃ total added removed tent, (runSource fetch db source).2 =
          SourceOutcome.completed 40 total added removed tent) := by
  have hfst : ∀ ls : List JobListing, ls ≠ [] →
      (score_scrape ls).1 = round1 (rawMean ls) := by
    intro ls hne
    unfold score_scrape
    rw [if_neg (by simpa using hne)]
  have hround : ∀ ls : List JobListing, ls ≠ [] → (3995 / 100 : ℚ) ≤ rawMean ls →
      rawMean ls < 40 →
      (score_scrape ls).1 = 40 ∧ should_reject ((score_scrape ls).1) = false := by
    intro ls hne hlo hhi
    have hfloor : ⌊rawMean ls * 10⌋ = 399 := by
      rw [Int.floor_eq_iff]
      constructor
      · push_cast
        linarith
      · push_cast
        linarith
    have h40 : round1 (rawMean ls) = 40 := by
      unfold round1 roundHalfEven
      rw [hfloor]
      split_ifs with h1 h2 h3
      · exfalso
        push_cast at h1
        linarith
      · norm_num
      · exact absurd h3 (by decide)
      · norm_num
    refine ⟨(hfst ls hne).trans h40, ?_⟩
    rw [(hfst ls hne).trans h40]
    decide
  refine ⟨hfst, hround, ?_⟩
  intro fetch db source raws hf hne hlo hhi
  have hne2 : raws.map normalizeRaw ≠ [] := by
    simpa using hne
  have hmean := hround (raws.map normalizeRaw) hne2 hlo hhi
  simp only [runSource, hf]
  rw [hmean.2]
  simp only [Bool.false_eq_true, if_false]
  exact ⟨_, _, _, _, by rw [hmean.1]⟩

/-- C2: on a rejected run the orchestrator leaves `job_listings` untouched
(no diff, stability, insert or update), retrieves the last good snapshot,
and records a fallback `RunRecord` with status `'fallback'` and
`quality_score` 0; the snapshot lookup is unaffected by the freshly opened
running record. -/
theorem C2_reject_frame (fetch : String → Except String (List RawJobListing))
    (db : DBState) (source : String) (raws : List RawJobListing)
    (hf : fetch source = .ok raws)
    (hrej : should_reject ((score_scrape (raws.map normalizeRaw)).1) = true) :
    (runSource fetch db source).1.listings = db.listings ∧
    (runSource fetch db source).1.runs =
      db.runs ++ [mkRunningRecord source db.clock,
        { source := source, started_at := db.clock + 1,
          completed_at := some (db.clock + 1), status := RunStatus.fallback,
          quality_score := 0 }] ∧
    (runSource fetch db source).2 =
      SourceOutcome.fallbackUsed ((score_scrape (raws.map normalizeRaw)).1)
        (match get_last_successful_scrape
            { db with runs := db.runs ++ [mkRunningRecord source db.clock],
                      clock := db.clock + 1 } source with
         | some L => L.length
         | none => 0) ∧
    get_last_successful_scrape
        { db with runs := db.runs ++ [mkRunningRecord source db.clock],
                  clock := db.clock + 1 } source =
      get_last_successful_scrape db source := by
  have hstep : runSource fetch db source =
      (record_fallback_usage
        { db with runs := db.runs ++ [mkRunningRecord source db.clock],
                  clock := db.clock + 1 } source "below threshold",
       SourceOutcome.fallbackUsed ((score_scrape (raws.map normalizeRaw)).1)
        (match get_last_successful_scrape
            { db with runs := db.runs ++ [mkRunningRecord source db.clock],
                      clock := db.clock + 1 } source with
         | some L => L.length
         | none => 0)) := by
    simp only [runSource, hf]
    rw [if_pos hrej]
  refine ⟨by rw [hstep]; rfl, by rw [hstep]; simp [record_fallback_usage],
    by rw [hstep], ?_⟩
  unfold get_last_successful_scrape activeListings
  simp [List.filter_append, mkRunningRecord]

/-- Witness for C2: a run of one all-empty listing scores 0, is rejected, and
leaves an empty database's listings untouched while adding the running and
fallback run rows. -/
theorem C2_reject_frame_witness :
    (runSource (fun _ => Except.ok [emptyRaw]) { clock := 7 } "s").1.listings = [] ∧
    (runSource (fun _ => Except.ok [emptyRaw]) { clock := 7 } "s").1.runs =
      [mkRunningRecord "s" 7,
       { source := "s", started_at := 8, completed_at := some 8,
         status := RunStatus.fallback, quality_score := 0 }] := by
  have hmean : rawMean ([emptyRaw].map normalizeRaw) = 0 := by
    unfold rawMean
    rw [show ([emptyRaw].map normalizeRaw).map score_listing = [0] by decide,
        show ([emptyRaw].map normalizeRaw).length = 1 by decide]
    norm_num
  have hfst : (score_scrape ([emptyRaw].map normalizeRaw)).1 =
      round1 (rawMean ([emptyRaw].map normalizeRaw)) := by
    unfold score_scrape
    rw [if_neg (by decide)]
  have hscore : (score_scrape ([emptyRaw].map normalizeRaw)).1 = 0 := by
    rw [hfst, hmean]
    norm_num [round1, roundHalfEven]
  have h := C2_reject_frame (fun _ => Except.ok [emptyRaw]) { clock := 7 } "s"
      [emptyRaw] rfl (by rw [hscore]; decide)
  exact ⟨h.1, by rw [h.2.1]; rfl⟩

/-- C1 counterexample: a failing fetch leaves the per-source RunRecord in
status `'running'` after the orchestrator returns — a non-terminal status. -/
theorem C1_run_record_counterexample :
    ((runScrape (fun _ => Except.error "boom") {} ["src"]).1.runs.map
      RunRecord.status) = [RunStatus.running] ∧
    RunStatus.running.isTerminal = false := by
  constructor
  · decide
  · decide

/-- C1 amended: each per-source attempt inserts one RunRecord with status
`'running'`.  On the success path it is the only record added and is
finalized to `'completed'` (pre-existing records untouched); on the failure
path it is the only record added and stays `'running'`; on the fallback path
it stays `'running'` and a second record with status `'fallback'` and
quality 0 is inserted, so that attempt contributes two RunRecords. -/
theorem C1_run_record_amended (fetch : String → Except String (List RawJobListing))
    (db : DBState) (source : String)
    (hclash : ∀ r ∈ db.runs, ¬(r.source = source ∧ r.started_at = db.clock)) :
    (∀ e, fetch source = Except.error e →
       (runSource fetch db source).1.runs = db.runs ++ [mkRunningRecord source db.clock] ∧
       (mkRunningRecord source db.clock).status = RunStatus.running) ∧
    (∀ raws, fetch source = Except.ok raws →
       (should_reject ((score_scrape (raws.map normalizeRaw)).1) = true →
          (runSource fetch db source).1.runs =
            db.runs ++ [mkRunningRecord source db.clock,
              { source := source, started_at := db.clock + 1,
                completed_at := some (db.clock + 1), status := RunStatus.fallback,
                quality_score := 0 }]) ∧
       (should_reject ((score_scrape (raws.map normalizeRaw)).1) = false →
          (runSource fetch db source).1.runs.map RunRecord.status =
            db.runs.map RunRecord.status ++ [RunStatus.completed] ∧
          (runSource fetch db source).1.runs.map RunRecord.source =
            db.runs.map RunRecord.source ++ [source] ∧
          (runSource fetch db source).1.runs.map RunRecord.started_at =
            db.runs.map RunRecord.started_at ++ [db.clock])) := by
  constructor
  · intro e he
    constructor
    · simp only [runSource, he]
    · rfl
  · intro raws hok
    constructor
    · intro hrej
      have h := C2_reject_frame fetch db source raws hok hrej
      rw [h.2.1]
    · intro hpub
      have hfin : ∀ mean s, finalizeRun source db.clock (db.clock + 1 + 2) mean s
          (mkRunningRecord source db.clock) =
          { source := source, started_at := db.clock,
            completed_at := some (db.clock + 1 + 2), status := RunStatus.completed,
            quality_score := mean, total_count := s.total_count,
            added_count := s.added_count, removed_count := s.removed_count,
            retained_count := s.retained_count } := by
        intro mean s
        unfold finalizeRun mkRunningRecord
        rw [if_pos ⟨rfl, rfl⟩]
      simp only [runSource, hok]
      rw [hpub]
      simp only [Bool.false_eq_true, if_false, List.map_append,
        map_finalize_id source db.clock _ _ _ db.runs hclash, List.map_cons,
        List.map_nil, hfin]
      exact ⟨trivial, trivial, trivial⟩

/-- Witness for C1 at concrete inputs: the failure path keeps the single
running record; the success path yields one completed record for the source,
opened at the initial clock. -/
theorem C1_run_record_amended_witness :
    ((runSource (fun _ => Except.error "down") { clock := 3 } "s").1.runs =
      [mkRunningRecord "s" 3] ∧ (mkRunningRecord "s" 3).status = RunStatus.running) ∧
    ((runSource (fun _ => Except.ok [fullRaw "z"]) { clock := 3 } "x").1.runs.map
        RunRecord.status = [RunStatus.completed] ∧
     (runSource (fun _ => Except.ok [fullRaw "z"]) { clock := 3 } "x").1.runs.map
        RunRecord.source = ["x"] ∧
     (runSource (fun _ => Except.ok [fullRaw "z"]) { clock := 3 } "x").1.runs.map
        RunRecord.started_at = [3]) := by
  constructor
  · have h := (C1_run_record_amended (fun _ => Except.error "down") { clock := 3 } "s"
      (by intro r hr; simp at hr)).1 "down" rfl
    simpa using h
  · have hmean : rawMean ([fullRaw "z"].map normalizeRaw) = 100 := by
      unfold rawMean
      rw [show ([fullRaw "z"].map normalizeRaw).map score_listing = [100] by decide,
          show ([fullRaw "z"].map normalizeRaw).length = 1 by decide]
      norm_num
    have hfst : (score_scrape ([fullRaw "z"].map normalizeRaw)).1 =
        round1 (rawMean ([fullRaw "z"].map normalizeRaw)) := by
      unfold score_scrape
      rw [if_neg (by decide)]
    have hsr : should_reject ((score_scrape ([fullRaw "z"].map normalizeRaw)).1) =
        false := by
      rw [hfst, hmean, show round1 (100 : ℚ) = 100 by norm_num [round1, roundHalfEven]]
      decide
    have h := ((C1_run_record_amended (fun _ => Except.ok [fullRaw "z"])
      { clock := 3 } "x" (by intro r hr; simp at hr)).2 [fullRaw "z"] rfl).2 hsr
    simpa using h

/-- The end-to-end scenario database of the spec: previous active ids
`{A, B, C}` for source `"x"`, all with `consecutive_misses = 0`. -/
def c3db : DBState :=
  { listings := [{ external_id := "A", source := "x", title := "Old", company := "Co" },
                 { external_id := "B", source := "x", title := "Old", company := "Co" },
                 { external_id := "C", source := "x", title := "Old", company := "Co" }],
    clock := 100 }

/-- The scenario fetch: the current run returns ids `{B, C, D}`, each scoring
100 after normalization. -/
def c3fetch : String → Except String (List RawJobListing) :=
  fun _ => Except.ok [fullRaw "B", fullRaw "C", fullRaw "D"]

/-- The normalized form of `fullRaw`, as the persistence step stores it. -/
def fullStored (eid : String) (firstSeen lastSeen : Nat) : PersistedListing :=
  { external_id := eid, source := "x", title := "Backend Wizard", company := "Initech",
    location := some "Berlin", salary_min := some 50000, salary_max := none,
    currency := some "USD", tags := [], url := some "https://jobs.example/1",
    posted_at := none, first_seen := firstSeen, last_seen := lastSeen,
    is_active := true, consecutive_misses := 0, quality_score := 100 }

theorem c3_run_eval : runScrape c3fetch c3db ["x"] =
    ({ runs := [{ source := "x", started_at := 100, completed_at := some 103,
                  status := RunStatus.completed, quality_score := 100,
                  total_count := 3, added_count := 1, removed_count := 1,
                  retained_count := 2 }],
       listings := [{ external_id := "A", source := "x", title := "Old",
                      company := "Co", consecutive_misses := 1 },
                    fullStored "B" 0 102, fullStored "C" 0 102,
                    fullStored "D" 102 102],
       clock := 104 },
     [("x", SourceOutcome.completed 100 3 1 0 1)]) := by
  have hmean : rawMean ([fullRaw "B", fullRaw "C", fullRaw "D"].map normalizeRaw) =
      100 := by
    unfold rawMean
    rw [show ([fullRaw "B", fullRaw "C", fullRaw "D"].map normalizeRaw).map
          score_listing = [100, 100, 100] by decide,
        show ([fullRaw "B", fullRaw "C", fullRaw "D"].map normalizeRaw).length = 3 by
          decide]
    norm_num
  have hfst : (score_scrape ([fullRaw "B", fullRaw "C", fullRaw "D"].map
      normalizeRaw)).1 = 100 := by
    rw [show (score_scrape ([fullRaw "B", fullRaw "C", fullRaw "D"].map
        normalizeRaw)).1 = round1 (rawMean ([fullRaw "B", fullRaw "C", fullRaw "D"].map
        normalizeRaw)) by unfold score_scrape; rw [if_neg (by decide)]]
    rw [hmean]
    norm_num [round1, roundHalfEven]
  have hsr : should_reject ((score_scrape ([fullRaw "B", fullRaw "C",
      fullRaw "D"].map normalizeRaw)).1) = false := by
    rw [hfst]
    decide
  simp only [runScrape, runSource, c3fetch]
  rw [hsr]
  simp only [Bool.false_eq_true, if_false]
  rw [hfst]
  decide

/-- C3 counterexample: in the `{A,B,C} → {B,C,D}` scenario the finalized
RunRecord stores `removed_count = 1` (the raw diff count `|{A}|`), not the
claim's 0; only the caller-visible outcome reports 0 confirmed removals. -/
theorem C3_scenario_counterexample :
    (runScrape c3fetch c3db ["x"]).1.runs.map RunRecord.removed_count = [1] ∧
    (1 : Nat) ≠ 0 := by
  rw [c3_run_eval]
  exact ⟨rfl, by decide⟩

/-- C3 amended: in the scenario the diff is `added = {D}`, `removed = {A}`,
`retained = {B, C}`; A's misses go 0 → 1 and A stays active (tentative); D is
inserted new; the finalized RunRecord is completed with `total_count = 3`,
`added_count = 1`, `removed_count = 1` (the raw diff count, not yet
confirmed removals), `retained_count = 2`; the caller-visible outcome
reports 0 confirmed and 1 tentative removal with quality 100. -/
theorem C3_scenario_amended :
    (detect_changes {"A", "B", "C"} {"B", "C", "D"}).added = {"D"} ∧
    (detect_changes {"A", "B", "C"} {"B", "C", "D"}).removed = {"A"} ∧
    (detect_changes {"A", "B", "C"} {"B", "C", "D"}).retained = {"B", "C"} ∧
    (runScrape c3fetch c3db ["x"]).1.listings =
      [{ external_id := "A", source := "x", title := "Old", company := "Co",
         consecutive_misses := 1 },
       fullStored "B" 0 102, fullStored "C" 0 102, fullStored "D" 102 102] ∧
    (runScrape c3fetch c3db ["x"]).1.runs =
      [{ source := "x", started_at := 100, completed_at := some 103,
         status := RunStatus.completed, quality_score := 100, total_count := 3,
         added_count := 1, removed_count := 1, retained_count := 2 }] ∧
    (runScrape c3fetch c3db ["x"]).2 = [("x", SourceOutcome.completed 100 3 1 0 1)] := by
  rw [c3_run_eval]
  refine ⟨by decide, by decide, by decide, rfl, rfl, rfl⟩

/-- A listing scoring exactly 40 (title + location). -/
def listing40 : JobListing :=
  { external_id := "w", source := "s", title := "abc", company := "",
    location := some "loc" }

/-- A listing scoring exactly 35 (url + location). -/
def listing35 : JobListing :=
  { external_id := "w", source := "s", title := "", company := "",
    url := some "u", location := some "loc" }

/-- Witness for C10: 99 listings scoring 40 and one scoring 35 have exact
mean 39.95, which rounds to 40.0 and is not rejected. -/
theorem C10_rounded_gate_witness :
    (score_scrape (List.replicate 99 listing40 ++ [listing35])).1 = 40 ∧
    should_reject ((score_scrape (List.replicate 99 listing40 ++ [listing35])).1) =
      false := by
  have hsum : ((List.replicate 99 listing40 ++ [listing35]).map score_listing).sum =
      3995 := by decide
  have hlen : (List.replicate 99 listing40 ++ [listing35]).length = 100 := by decide
  have hmean : rawMean (List.replicate 99 listing40 ++ [listing35]) = 3995 / 100 := by
    unfold rawMean
    rw [hsum, hlen]
    norm_num
  exact C10_rounded_gate.2.1 (List.replicate 99 listing40 ++ [listing35])
    (by decide) (by rw [hmean]) (by rw [hmean]; norm_num)

/-! ## Character-level lemmas for the normalizer idempotence analysis -/

theorem charEq_of_toNat {a b : Char} (h : a.toNat = b.toNat) : a = b :=
  Char.eq_of_val_eq (UInt32.ext h)

theorem toNat_ofNat_valid (n : Nat) (h : n.isValidChar) : (Char.ofNat n).toNat = n := by
  unfold Char.ofNat
  rw [dif_pos h]
  rfl

theorem toUpper_toNat (c : Char) : (Char.toUpper c).toNat =
    if 97 ≤ c.toNat ∧ c.toNat ≤ 122 then c.toNat - 32 else c.toNat := by
  unfold Char.toUpper
  split
  · rename_i h
    rw [if_pos (by omega)]
    exact toNat_ofNat_valid _ (by unfold Nat.isValidChar; left; omega)
  · rename_i h
    rw [if_neg (by omega)]

theorem toLower_toNat (c : Char) : (Char.toLower c).toNat =
    if 65 ≤ c.toNat ∧ c.toNat ≤ 90 then c.toNat + 32 else c.toNat := by
  unfold Char.toLower
  split
  · rename_i h
    rw [if_pos (by omega)]
    exact toNat_ofNat_valid _ (by unfold Nat.isValidChar; left; omega)
  · rename_i h
    rw [if_neg (by omega)]

theorem sp_iff (c : Char) : isPySpace c = true ↔
    c.toNat = 32 ∨ c.toNat = 9 ∨ c.toNat = 10 ∨ c.toNat = 13 ∨ c.toNat = 11 ∨
    c.toNat = 12 := by
  unfold isPySpace
  simp only [Bool.or_eq_true, decide_eq_true_eq]
  constructor
  · rintro (((((h | h) | h) | h) | h) | h) <;> subst h <;> simp [Char.toNat]
  · rintro (h | h | h | h | h | h) <;>
      [skip; skip; skip; skip; skip; skip] <;>
      first
        | exact Or.inl (Or.inl (Or.inl (Or.inl (Or.inl (charEq_of_toNat (by simpa [Char.toNat] using h))))))
        | exact Or.inl (Or.inl (Or.inl (Or.inl (Or.inr (charEq_of_toNat (by simpa [Char.toNat] using h))))))
        | exact Or.inl (Or.inl (Or.inl (Or.inr (charEq_of_toNat (by simpa [Char.toNat] using h)))))
        | exact Or.inl (Or.inl (Or.inr (charEq_of_toNat (by simpa [Char.toNat] using h))))
        | exact Or.inl (Or.inr (charEq_of_toNat (by simpa [Char.toNat] using h)))
        | exact Or.inr (charEq_of_toNat (by simpa [Char.toNat] using h))

theorem isUpper_iff (c : Char) : c.isUpper = true ↔ 65 ≤ c.toNat ∧ c.toNat ≤ 90 := by
  unfold Char.isUpper
  simp only [Bool.and_eq_true, decide_eq_true_eq, ge_iff_le]
  exact Iff.rfl

theorem isLower_iff (c : Char) : c.isLower = true ↔ 97 ≤ c.toNat ∧ c.toNat ≤ 122 := by
  unfold Char.isLower
  simp only [Bool.and_eq_true, decide_eq_true_eq, ge_iff_le]
  exact Iff.rfl

theorem sp_toUpper (c : Char) : isPySpace (Char.toUpper c) = isPySpace c := by
  cases hb : isPySpace c
  · rw [Bool.eq_false_iff]
    intro hup
    have h1 := (sp_iff _).mp hup
    rw [toUpper_toNat] at h1
    have h2 : isPySpace c = true := by
      rw [sp_iff]
      split at h1 <;> omega
    rw [hb] at h2
    exact absurd h2 (by simp)
  · rw [sp_iff]
    have h1 := (sp_iff c).mp hb
    rw [toUpper_toNat]
    split <;> omega

theorem sp_toLower (c : Char) : isPySpace (Char.toLower c) = isPySpace c := by
  cases hb : isPySpace c
  · rw [Bool.eq_false_iff]
    intro hup
    have h1 := (sp_iff _).mp hup
    rw [toLower_toNat] at h1
    have h2 : isPySpace c = true := by
      rw [sp_iff]
      split at h1 <;> omega
    rw [hb] at h2
    exact absurd h2 (by simp)
  · rw [sp_iff]
    have h1 := (sp_iff c).mp hb
    rw [toLower_toNat]
    split <;> omega

theorem toLower_toUpper (c : Char) : Char.toLower (Char.toUpper c) = Char.toLower c := by
  apply charEq_of_toNat
  rw [toLower_toNat, toLower_toNat, toUpper_toNat]
  split_ifs <;> omega

theorem toLower_toLower (c : Char) : Char.toLower (Char.toLower c) = Char.toLower c := by
  apply charEq_of_toNat
  rw [toLower_toNat, toLower_toNat]
  split_ifs <;> omega

theorem toUpper_toUpper (c : Char) : Char.toUpper (Char.toUpper c) = Char.toUpper c := by
  apply charEq_of_toNat
  rw [toUpper_toNat, toUpper_toNat]
  split_ifs <;> omega

theorem isUpper_toLower (c : Char) : (Char.toLower c).isUpper = false := by
  rw [Bool.eq_false_iff]
  intro h
  have h1 := (isUpper_iff _).mp h
  rw [toLower_toNat] at h1
  split at h1 <;> omega

theorem toUpper_eq_lparen (c : Char) : Char.toUpper c = '(' ↔ c = '(' := by
  constructor
  · intro h
    apply charEq_of_toNat
    have h1 : (Char.toUpper c).toNat = 40 := by rw [h]; rfl
    rw [toUpper_toNat] at h1
    have h2 : c.toNat = 40 := by split at h1 <;> omega
    simpa [Char.toNat] using h2
  · intro h
    subst h
    rfl

theorem toLower_eq_rparen (c : Char) : Char.toLower c = ')' ↔ c = ')' := by
  constructor
  · intro h
    apply charEq_of_toNat
    have h1 : (Char.toLower c).toNat = 41 := by rw [h]; rfl
    rw [toLower_toNat] at h1
    have h2 : c.toNat = 41 := by split at h1 <;> omega
    simpa [Char.toNat] using h2
  · intro h
    subst h
    rfl

/-! ## Whitespace-shape invariants of normalized strings -/

/-- No two adjacent whitespace characters. -/
def wsRel (a b : Char) : Prop := ¬(isPySpace a = true ∧ isPySpace b = true)

instance (a b : Char) : Decidable (wsRel a b) :=
  inferInstanceAs (Decidable (¬(isPySpace a = true ∧ isPySpace b = true)))

/-- The shape of (substrings of) whitespace-normalized text: every whitespace
character is a plain space and no two are adjacent. -/
def wsOk (s : List Char) : Prop :=
  (∀ c ∈ s, isPySpace c = true → c = ' ') ∧ List.Chain' wsRel s

theorem wsOk_within {l' l : List Char} (h : l' <:+: l) (hl : wsOk l) : wsOk l' := by
  obtain ⟨a, b, rfl⟩ := h
  refine ⟨fun c hc => hl.1 c (by simp [hc]), ?_⟩
  have h1 := (List.chain'_append.mp hl.2).1
  exact (List.chain'_append.mp h1).2.1

theorem wsOk_reverse {l : List Char} (hl : wsOk l) : wsOk l.reverse := by
  refine ⟨fun c hc => hl.1 c (by simpa using hc), ?_⟩
  rw [List.chain'_reverse]
  exact hl.2.imp (fun a b hab h => hab ⟨h.2, h.1⟩)

theorem wsOk_tail {c : Char} {l : List Char} (h : wsOk (c :: l)) : wsOk l := by
  refine ⟨fun x hx => h.1 x (by simp [hx]), ((List.chain'_cons').mp h.2).2⟩

theorem dropWhile_head_not (p : Char → Bool) (l : List Char) :
    ∀ c, (l.dropWhile p).head? = some c → p c = false := by
  induction l with
  | nil => intro c hc; simp at hc
  | cons a t ih =>
    intro c hc
    rw [List.dropWhile_cons] at hc
    split at hc
    · exact ih c hc
    · rename_i h
      simp only [List.head?_cons, Option.some.injEq] at hc
      subst hc
      simpa using h

theorem suffix_getLast? {l' l : List Char} (h : l' <:+ l) (hne : l' ≠ []) :
    l'.getLast? = l.getLast? := by
  obtain ⟨a, rfl⟩ := h
  exact (List.getLast?_append_of_ne_nil _ hne).symm

theorem pyStrip_head (s : List Char) :
    ∀ c, (pyStrip s).head? = some c → isPySpace c = false := by
  intro c hc
  unfold pyStrip at hc
  rw [List.head?_reverse] at hc
  have hsuf : List.dropWhile isPySpace ((List.dropWhile isPySpace s).reverse) <:+
      (List.dropWhile isPySpace s).reverse := List.dropWhile_suffix _
  have hne : List.dropWhile isPySpace ((List.dropWhile isPySpace s).reverse) ≠ [] := by
    intro h0
    rw [h0] at hc
    simp at hc
  rw [suffix_getLast? hsuf hne, List.getLast?_reverse] at hc
  exact dropWhile_head_not _ _ _ hc

theorem pyStrip_last (s : List Char) :
    ∀ c, (pyStrip s).getLast? = some c → isPySpace c = false := by
  intro c hc
  unfold pyStrip at hc
  rw [List.getLast?_reverse] at hc
  exact dropWhile_head_not _ _ _ hc

theorem collapseGo_mem (s : List Char) (b : Bool) :
    ∀ c ∈ collapseGo b s, isPySpace c = true → c = ' ' := by
  induction s generalizing b with
  | nil => intro c hc; simp [collapseGo] at hc
  | cons a t ih =>
    intro c hc hsp
    unfold collapseGo at hc
    split at hc
    · split at hc
      · exact ih true c hc hsp
      · rcases List.mem_cons.mp hc with h | h
        · exact h
        · exact ih true c h hsp
    · rcases List.mem_cons.mp hc with h | h
      · subst h
        rename_i hna
        exact absurd hsp (by simp [hna])
      · exact ih false c h hsp

theorem collapseGo_true_head (s : List Char) :
    ∀ y, (collapseGo true s).head? = some y → isPySpace y = false := by
  induction s with
  | nil => intro y hy; simp [collapseGo] at hy
  | cons a t ih =>
    intro y hy
    unfold collapseGo at hy
    split at hy
    · exact ih y hy
    · rename_i hna
      simp only [List.head?_cons, Option.some.injEq] at hy
      subst hy
      simpa using hna

theorem collapseGo_chain (s : List Char) : ∀ b, List.Chain' wsRel (collapseGo b s) := by
  induction s with
  | nil => intro b; simp [collapseGo]
  | cons a t ih =>
    intro b
    unfold collapseGo
    split
    · split
      · exact ih true
      · rw [List.chain'_cons']
        refine ⟨fun y hy => ?_, ih true⟩
        have := collapseGo_true_head t y hy
        unfold wsRel
        simp [this]
    · rename_i hna
      rw [List.chain'_cons']
      refine ⟨fun y hy => ?_, ih false⟩
      unfold wsRel
      simp [hna]

theorem wsOk_normWs (s : List Char) : wsOk (normWsCore s) := by
  unfold normWsCore collapseWs
  have h : wsOk (collapseGo false s) := ⟨collapseGo_mem s false, collapseGo_chain s false⟩
  unfold pyStrip
  exact wsOk_reverse (wsOk_within (List.dropWhile_suffix _).isInfix
    (wsOk_reverse (wsOk_within (List.dropWhile_suffix _).isInfix h)))

theorem collapseGo_fixed (s : List Char) : wsOk s → ∀ b,
    (b = true → ∀ c, s.head? = some c → isPySpace c = false) → collapseGo b s = s := by
  induction s with
  | nil => intro _ b _; rfl
  | cons a t ih =>
    intro hws b hb
    unfold collapseGo
    split
    · rename_i ha
      cases b with
      | true => exact absurd ha (by simp [hb rfl a rfl])
      | false =>
        have ha' : a = ' ' := hws.1 a (by simp) ha
        have hhead : ∀ c2, t.head? = some c2 → isPySpace c2 = false := by
          intro c2 hc2
          have hlink := (List.chain'_cons'.mp hws.2).1 c2 hc2
          unfold wsRel at hlink
          by_contra hcc
          simp only [Bool.not_eq_false] at hcc
          exact hlink ⟨ha, hcc⟩
        simp only [Bool.false_eq_true, if_false]
        rw [ih (wsOk_tail hws) true (fun _ => hhead), ha']
    · rename_i ha
      rw [ih (wsOk_tail hws) false (by simp)]

theorem pyStrip_fixed (s : List Char)
    (hh : ∀ c, s.head? = some c → isPySpace c = false)
    (hl : ∀ c, s.getLast? = some c → isPySpace c = false) : pyStrip s = s := by
  unfold pyStrip
  have h1 : List.dropWhile isPySpace s = s := by
    cases s with
    | nil => rfl
    | cons a t => exact dropWhile_head_neg _ _ _ (hh a rfl)
  rw [h1]
  have h2 : List.dropWhile isPySpace s.reverse = s.reverse := by
    cases hr : s.reverse with
    | nil => rfl
    | cons a t =>
      refine dropWhile_head_neg _ _ _ (hl a ?_)
      rw [← List.head?_reverse, hr]
      rfl
  rw [h2, List.reverse_reverse]

theorem normWs_fixed_of (s : List Char) (hws : wsOk s)
    (hh : ∀ c, s.head? = some c → isPySpace c = false)
    (hl : ∀ c, s.getLast? = some c → isPySpace c = false) : normWsCore s = s := by
  unfold normWsCore collapseWs
  rw [collapseGo_fixed s hws false (by simp)]
  exact pyStrip_fixed s hh hl

theorem normWs_idem (s : List Char) : normWsCore (normWsCore s) = normWsCore s :=
  normWs_fixed_of _ (wsOk_normWs s) (pyStrip_head _) (pyStrip_last _)

/-! ## Word-splitting and joining -/

/-- A word produced by whitespace splitting: non-empty and whitespace-free. -/
def goodWord (w : List Char) : Prop := w ≠ [] ∧ ∀ c ∈ w, isPySpace c = false

theorem splitGo_good (s : List Char) : ∀ cur, (∀ c ∈ cur, isPySpace c = false) →
    ∀ w ∈ splitGo cur s, goodWord w := by
  induction s with
  | nil =>
    intro cur hcur w hw
    unfold splitGo at hw
    split at hw
    · simp at hw
    · rename_i hne
      rw [List.mem_singleton] at hw
      subst hw
      exact ⟨by simpa [List.isEmpty_iff] using hne,
        fun c hc => hcur c (by simpa using hc)⟩
  | cons a t ih =>
    intro cur hcur w hw
    unfold splitGo at hw
    split at hw
    · split at hw
      · exact ih [] (by simp) w hw
      · rename_i hne
        rcases List.mem_cons.mp hw with h | h
        · subst h
          exact ⟨by simpa [List.isEmpty_iff] using hne,
            fun c hc => hcur c (by simpa using hc)⟩
        · exact ih [] (by simp) w h
    · rename_i hna
      refine ih (a :: cur) ?_ w hw
      intro c hc
      rcases List.mem_cons.mp hc with h | h
      · subst h; simpa using hna
      · exact hcur c h

theorem splitGo_word (w : List Char) : ∀ (cur rest : List Char),
    (∀ c ∈ w, isPySpace c = false) →
    splitGo cur (w ++ rest) = splitGo (w.reverse ++ cur) rest := by
  induction w with
  | nil => intro cur rest _; simp
  | cons c w' ih =>
    intro cur rest hw
    have hstep : splitGo cur ((c :: w') ++ rest) = splitGo (c :: cur) (w' ++ rest) := by
      rw [List.cons_append]
      conv_lhs => unfold splitGo
      rw [if_neg (by simpa using hw c (by simp))]
    rw [hstep, ih (c :: cur) rest (fun x hx => hw x (by simp [hx]))]
    congr 1
    simp

theorem join_ne_nil {ws : List (List Char)} (hne : ws ≠ [])
    (hgood : ∀ w ∈ ws, goodWord w) : joinWords ws ≠ [] := by
  cases ws with
  | nil => exact absurd rfl hne
  | cons w t =>
    cases t with
    | nil => exact (hgood w (by simp)).1
    | cons w2 t2 =>
      unfold joinWords
      simp

theorem join_head? (w : List Char) (ws : List (List Char)) (hw : goodWord w) :
    (joinWords (w :: ws)).head? = w.head? := by
  cases ws with
  | nil => rfl
  | cons w2 t2 =>
    show (w ++ ' ' :: joinWords (w2 :: t2)).head? = w.head?
    cases hww : w with
    | nil => exact absurd hww hw.1
    | cons a t => simp

theorem join_getLast_mem (ws : List (List Char)) (hne : ws ≠ [])
    (hgood : ∀ w ∈ ws, goodWord w) :
    ∃ wl ∈ ws, (joinWords ws).getLast? = wl.getLast? := by
  induction ws with
  | nil => exact absurd rfl hne
  | cons w t ih =>
    cases t with
    | nil => exact ⟨w, by simp, rfl⟩
    | cons w2 t2 =>
      obtain ⟨wl, hmem, hlast⟩ := ih (by simp) (fun x hx => hgood x (by simp [hx]))
      refine ⟨wl, by simp [hmem], ?_⟩
      show (w ++ ' ' :: joinWords (w2 :: t2)).getLast? = wl.getLast?
      rw [List.getLast?_append_of_ne_nil _ (by simp)]
      rw [show (' ' :: joinWords (w2 :: t2)).getLast? = (joinWords (w2 :: t2)).getLast? by
        cases hj : joinWords (w2 :: t2) with
        | nil => exact absurd hj (join_ne_nil (by simp)
            (fun x hx => hgood x (by simp [hx])))
        | cons b u => simp]
      exact hlast

theorem splitWs_join (ws : List (List Char)) (hgood : ∀ w ∈ ws, goodWord w) :
    splitWsCore (joinWords ws) = ws := by
  induction ws with
  | nil => rfl
  | cons w t ih =>
    have hw := hgood w (by simp)
    cases t with
    | nil =>
      show splitGo [] (joinWords [w]) = [w]
      rw [show joinWords [w] = w ++ [] by simp [joinWords]]
      rw [splitGo_word w [] [] hw.2]
      unfold splitGo
      rw [if_neg (by simpa [List.isEmpty_iff] using hw.1)]
      simp
    | cons w2 t2 =>
      show splitGo [] (w ++ ' ' :: joinWords (w2 :: t2)) = w :: (w2 :: t2)
      rw [splitGo_word w [] (' ' :: joinWords (w2 :: t2)) hw.2]
      unfold splitGo
      rw [if_pos (by decide)]
      rw [if_neg (by simpa [List.isEmpty_iff] using hw.1)]
      rw [show List.reverse (w.reverse ++ []) = w by simp]
      have := ih (fun x hx => hgood x (by simp [hx]))
      unfold splitWsCore at this
      rw [this]

theorem chain'_nonspace (w : List Char) (hw : ∀ c ∈ w, isPySpace c = false) :
    List.Chain' wsRel w := by
  induction w with
  | nil => simp
  | cons a t ih =>
    rw [List.chain'_cons']
    refine ⟨fun y _ => ?_, ih (fun c hc => hw c (by simp [hc]))⟩
    unfold wsRel
    simp [hw a (by simp)]

theorem join_wsOk (ws : List (List Char)) (hgood : ∀ w ∈ ws, goodWord w) :
    wsOk (joinWords ws) := by
  induction ws with
  | nil => exact ⟨by simp [joinWords], by simp [joinWords]⟩
  | cons w t ih =>
    have hw := hgood w (by simp)
    cases t with
    | nil =>
      exact ⟨fun c hc h => absurd h (by simp [hw.2 c hc]),
        chain'_nonspace w hw.2⟩
    | cons w2 t2 =>
      have iht := ih (fun x hx => hgood x (by simp [hx]))
      refine ⟨?_, ?_⟩
      · intro c hc hsp
        have hc2 : c ∈ w ++ ' ' :: joinWords (w2 :: t2) := hc
        rcases List.mem_append.mp hc2 with h | h
        · exact absurd hsp (by simp [hw.2 c h])
        · rcases List.mem_cons.mp h with h2 | h2
          · exact h2
          · exact iht.1 c h2 hsp
      · show List.Chain' wsRel (w ++ ' ' :: joinWords (w2 :: t2))
        rw [List.chain'_append]
        refine ⟨chain'_nonspace w hw.2, ?_, ?_⟩
        · rw [List.chain'_cons']
          refine ⟨fun y hy => ?_, iht.2⟩
          rw [join_head? w2 t2 (hgood w2 (by simp))] at hy
          have hw2 := hgood w2 (by simp)
          cases hww : w2 with
          | nil => exact absurd hww hw2.1
          | cons b u =>
            rw [hww] at hy
            simp only [List.head?_cons] at hy
            have hy' : y = b := by simpa using hy.symm
            subst hy'
            exact fun hsp => by
              have hns := hw2.2 y (by rw [hww]; simp)
              rw [hns] at hsp
              exact absurd hsp.2 (by simp)
        · intro x hx y hy
          simp only [List.head?_cons] at hy
          have hy' : y = ' ' := by simpa using hy.symm
          subst hy'
          have hxw : x ∈ w := List.mem_of_mem_getLast? hx
          exact fun hsp => absurd hsp.1 (by simp [hw.2 x hxw])

theorem join_normWs_fixed (ws : List (List Char)) (hgood : ∀ w ∈ ws, goodWord w) :
    normWsCore (joinWords ws) = joinWords ws := by
  cases ws with
  | nil => rfl
  | cons w t =>
    refine normWs_fixed_of _ (join_wsOk (w :: t) hgood) ?_ ?_
    · intro c hc
      rw [join_head? w t (hgood w (by simp))] at hc
      exact (hgood w (by simp)).2 c (List.mem_of_mem_head? hc)
    · intro c hc
      obtain ⟨wl, hmem, hlast⟩ := join_getLast_mem (w :: t) (by simp) hgood
      rw [hlast] at hc
      exact (hgood wl hmem).2 c (List.mem_of_mem_getLast? hc)


theorem lowerStr_upperStr (w : List Char) : lowerStr (upperStr w) = lowerStr w := by
  simp [lowerStr, upperStr, List.map_map, Function.comp, toLower_toUpper]

theorem lowerStr_lowerStr (w : List Char) : lowerStr (lowerStr w) = lowerStr w := by
  simp [lowerStr, List.map_map, Function.comp, toLower_toLower]

theorem upperStr_upperStr_str (w : List Char) : upperStr (upperStr w) = upperStr w := by
  simp [upperStr, List.map_map, Function.comp, toUpper_toUpper]

theorem acronyms_not_lparen (t : List Char) : ACRONYMS.contains ('(' :: t) = false := by
  simp [ACRONYMS, List.contains]

theorem getLast?_map (f : Char → Char) (l : List Char) :
    (l.map f).getLast? = l.getLast?.map f := by
  rw [← List.head?_reverse, ← List.map_reverse, List.head?_map, List.head?_reverse]

theorem lowerStr_cons (c : Char) (l : List Char) :
    lowerStr (c :: l) = Char.toLower c :: lowerStr l := rfl

theorem caseWord_acr {w : List Char} (hA : ACRONYMS.contains (lowerStr w) = true) :
    caseWord w = upperStr w := by
  unfold caseWord
  rw [if_pos hA]

theorem caseWord_paren_acr {w : List Char}
    (hA : ACRONYMS.contains (lowerStr w) = false)
    (hB : w.head? = some '(' ∧ w.getLast? = some ')')
    (hC : ACRONYMS.contains (lowerStr ((w.drop 1).dropLast)) = true) :
    caseWord w = '(' :: (upperStr ((w.drop 1).dropLast) ++ [')']) := by
  unfold caseWord
  rw [if_neg (by rw [hA]; decide), if_pos hB]
  show (if ACRONYMS.contains (lowerStr ((w.drop 1).dropLast)) = true then _ else w) = _
  rw [if_pos hC]

theorem caseWord_paren_other {w : List Char}
    (hA : ACRONYMS.contains (lowerStr w) = false)
    (hB : w.head? = some '(' ∧ w.getLast? = some ')')
    (hC : ACRONYMS.contains (lowerStr ((w.drop 1).dropLast)) = false) :
    caseWord w = w := by
  unfold caseWord
  rw [if_neg (by rw [hA]; decide), if_pos hB]
  show (if ACRONYMS.contains (lowerStr ((w.drop 1).dropLast)) = true then _ else w) = _
  rw [if_neg (by rw [hC]; decide)]

theorem caseWord_hasUpper {w : List Char}
    (hA : ACRONYMS.contains (lowerStr w) = false)
    (hB : ¬(w.head? = some '(' ∧ w.getLast? = some ')'))
    (hD : (w.drop 1).any Char.isUpper = true) :
    caseWord w = w := by
  unfold caseWord
  rw [if_neg (by rw [hA]; decide), if_neg hB, if_pos hD]

theorem caseWord_cap {w : List Char}
    (hA : ACRONYMS.contains (lowerStr w) = false)
    (hB : ¬(w.head? = some '(' ∧ w.getLast? = some ')'))
    (hD : (w.drop 1).any Char.isUpper = false) :
    caseWord w = pyCapitalize w := by
  unfold caseWord
  rw [if_neg (by rw [hA]; decide), if_neg hB, if_neg (by rw [hD]; decide)]

theorem caseWord_idem (w : List Char) : caseWord (caseWord w) = caseWord w := by
  by_cases hA : ACRONYMS.contains (lowerStr w) = true
  · rw [caseWord_acr hA,
      caseWord_acr (by rw [lowerStr_upperStr]; exact hA), upperStr_upperStr_str]
  · rw [Bool.not_eq_true] at hA
    by_cases hB : w.head? = some '(' ∧ w.getLast? = some ')'
    · by_cases hC : ACRONYMS.contains (lowerStr ((w.drop 1).dropLast)) = true
      · rw [caseWord_paren_acr hA hB hC]
        have hA' : ACRONYMS.contains
            (lowerStr ('(' :: (upperStr ((w.drop 1).dropLast) ++ [')']))) = false := by
          rw [lowerStr_cons]
          rw [show Char.toLower '(' = '(' from rfl]
          exact acronyms_not_lparen _
        have hB' : ('(' :: (upperStr ((w.drop 1).dropLast) ++ [')'])).head? = some '(' ∧
            ('(' :: (upperStr ((w.drop 1).dropLast) ++ [')'])).getLast? = some ')' := by
          refine ⟨rfl, ?_⟩
          have he : ('(' :: (upperStr ((w.drop 1).dropLast) ++ [')'])) =
              ('(' :: upperStr ((w.drop 1).dropLast)) ++ [')'] := by simp
          rw [he, List.getLast?_append_of_ne_nil _ (by simp)]
          rfl
        have hinner : ((('(' :: (upperStr ((w.drop 1).dropLast) ++ [')'])).drop 1).dropLast) =
            upperStr ((w.drop 1).dropLast) := by
          simp
        rw [caseWord_paren_acr hA' hB'
          (by rw [hinner, lowerStr_upperStr]; exact hC), hinner, upperStr_upperStr_str]
      · rw [caseWord_paren_other hA hB (by simpa using hC),
          caseWord_paren_other hA hB (by simpa using hC)]
    · by_cases hD : (w.drop 1).any Char.isUpper = true
      · rw [caseWord_hasUpper hA hB hD, caseWord_hasUpper hA hB hD]
      · rw [Bool.not_eq_true] at hD
        rw [caseWord_cap hA hB hD]
        cases w with
        | nil => rfl
        | cons c r =>
          show caseWord (Char.toUpper c :: r.map Char.toLower) = pyCapitalize (c :: r)
          have hA' : ACRONYMS.contains
              (lowerStr (Char.toUpper c :: r.map Char.toLower)) = false := by
            rw [lowerStr_cons, toLower_toUpper]
            rw [show lowerStr (r.map Char.toLower) = lowerStr r by
              simp [lowerStr, List.map_map, Function.comp, toLower_toLower]]
            exact hA
          have hB' : ¬((Char.toUpper c :: r.map Char.toLower).head? = some '(' ∧
              (Char.toUpper c :: r.map Char.toLower).getLast? = some ')') := by
            rintro ⟨hh, hl⟩
            simp only [List.head?_cons, Option.some.injEq] at hh
            have hc : c = '(' := (toUpper_eq_lparen c).mp hh
            cases r with
            | nil =>
              simp only [List.map_nil, List.getLast?_singleton, Option.some.injEq] at hl
              rw [hh] at hl
              exact absurd hl (by decide)
            | cons r0 rs =>
              rw [List.map_cons, List.getLast?_cons_cons, ← List.map_cons,
                getLast?_map] at hl
              cases hg : (r0 :: rs).getLast? with
              | none => rw [hg] at hl; exact absurd hl (by simp)
              | some d =>
                rw [hg] at hl
                simp only [Option.map_some', Option.some.injEq] at hl
                have hd : d = ')' := (toLower_eq_rparen d).mp hl
                exact hB ⟨by simp [hc], by rw [List.getLast?_cons_cons, hg, hd]⟩
          have hD' : ((Char.toUpper c :: r.map Char.toLower).drop 1).any Char.isUpper
              = false := by
            simp [List.any_map, Function.comp, isUpper_toLower]
          rw [caseWord_cap hA' hB' hD']
          show Char.toUpper (Char.toUpper c) :: (r.map Char.toLower).map Char.toLower =
            Char.toUpper c :: r.map Char.toLower
          rw [toUpper_toUpper]
          simp [List.map_map, Function.comp, toLower_toLower]

theorem caseWord_good (w : List Char) (hw : goodWord w) : goodWord (caseWord w) := by
  by_cases hA : ACRONYMS.contains (lowerStr w) = true
  · rw [caseWord_acr hA]
    refine ⟨by simpa [upperStr] using hw.1, ?_⟩
    intro c hc
    obtain ⟨d, hd, rfl⟩ := List.mem_map.mp hc
    rw [sp_toUpper]
    exact hw.2 d hd
  · rw [Bool.not_eq_true] at hA
    by_cases hB : w.head? = some '(' ∧ w.getLast? = some ')'
    · by_cases hC : ACRONYMS.contains (lowerStr ((w.drop 1).dropLast)) = true
      · rw [caseWord_paren_acr hA hB hC]
        refine ⟨by simp, ?_⟩
        intro c hc
        rcases List.mem_cons.mp hc with h | h
        · subst h; decide
        · rcases List.mem_append.mp h with h2 | h2
          · obtain ⟨d, hd, rfl⟩ := List.mem_map.mp h2
            rw [sp_toUpper]
            exact hw.2 d (List.drop_subset 1 w (List.dropLast_subset _ hd))
          · rw [List.mem_singleton] at h2
            subst h2; decide
      · rw [caseWord_paren_other hA hB (by simpa using hC)]; exact hw
    · by_cases hD : (w.drop 1).any Char.isUpper = true
      · rw [caseWord_hasUpper hA hB hD]; exact hw
      · rw [Bool.not_eq_true] at hD
        rw [caseWord_cap hA hB hD]
        cases w with
        | nil => exact absurd rfl hw.1
        | cons c r =>
          refine ⟨by simp [pyCapitalize], ?_⟩
          intro x hx
          simp only [pyCapitalize] at hx
          rcases List.mem_cons.mp hx with h | h
          · subst h
            rw [sp_toUpper]
            exact hw.2 c (by simp)
          · obtain ⟨d, hd, rfl⟩ := List.mem_map.mp h
            rw [sp_toLower]
            exact hw.2 d (by simp [hd])

theorem normTitle_idem_of (s : List Char)
    (hstrip : stripHtmlCore (normTitleCore s) = normTitleCore s)
    (hexp : expandAll (normTitleCore s) = normTitleCore s) :
    normTitleCore (normTitleCore s) = normTitleCore s := by
  have hgood0 : ∀ w ∈ splitWsCore (expandAll (normWsCore (stripHtmlCore s))), goodWord w :=
    fun w hw => splitGo_good _ [] (by simp) w hw
  have hgood : ∀ w ∈ (splitWsCore (expandAll (normWsCore (stripHtmlCore s)))).map caseWord,
      goodWord w := by
    intro w hw
    obtain ⟨v, hv, rfl⟩ := List.mem_map.mp hw
    exact caseWord_good v (hgood0 v hv)
  have hnw : normWsCore (normTitleCore s) = normTitleCore s :=
    join_normWs_fixed _ hgood
  have hsj : splitWsCore (normTitleCore s) =
      (splitWsCore (expandAll (normWsCore (stripHtmlCore s)))).map caseWord :=
    splitWs_join _ hgood
  show joinWords ((splitWsCore (expandAll (normWsCore (stripHtmlCore
      (normTitleCore s))))).map caseWord) = normTitleCore s
  rw [hstrip, hnw, hexp, hsj, List.map_map]
  have hmc : (splitWsCore (expandAll (normWsCore (stripHtmlCore s)))).map
      (caseWord ∘ caseWord) =
      (splitWsCore (expandAll (normWsCore (stripHtmlCore s)))).map caseWord :=
    List.map_congr_left (fun w _ => caseWord_idem w)
  rw [hmc]
  rfl

theorem suffixStrip_cases (z : List Char) :
    suffixStrip z = z ∨
    ∃ a : List Char, suffixStrip z =
      ((z.reverse.drop a.length).dropWhile isPySpace).reverse := by
  simp only [suffixStrip]
  split
  · rename_i a _
    by_cases hsp : (z.reverse.drop a.length).head?.any isPySpace
    · right
      exact ⟨a, by rw [if_pos hsp]⟩
    · left
      rw [if_neg hsp]
  · left
    rfl

theorem suffixStrip_normWs_fixed (z : List Char) (hws : wsOk z)
    (hh : ∀ c, z.head? = some c → isPySpace c = false)
    (hl : ∀ c, z.getLast? = some c → isPySpace c = false) :
    normWsCore (suffixStrip z) = suffixStrip z := by
  rcases suffixStrip_cases z with h | ⟨a, h⟩
  · rw [h]
    exact normWs_fixed_of z hws hh hl
  · rw [h]
    refine normWs_fixed_of _ ?_ ?_ ?_
    · refine wsOk_reverse (wsOk_within ?_ (wsOk_reverse hws))
      exact ((List.dropWhile_suffix _).trans (List.drop_suffix _ _)).isInfix
    · intro c hc
      rw [List.head?_reverse] at hc
      have hne : List.dropWhile isPySpace (z.reverse.drop a.length) ≠ [] := by
        intro h0
        rw [h0] at hc
        simp at hc
      rw [suffix_getLast? ((List.dropWhile_suffix _).trans (List.drop_suffix _ _))
        hne, List.getLast?_reverse] at hc
      exact hh c hc
    · intro c hc
      rw [List.getLast?_reverse] at hc
      exact dropWhile_head_not _ _ _ hc

theorem normCompany_idem_of (s : List Char)
    (hstrip : stripHtmlCore (normCompanyCore s) = normCompanyCore s)
    (hsuf : suffixStrip (normCompanyCore s) = normCompanyCore s) :
    normCompanyCore (normCompanyCore s) = normCompanyCore s := by
  have hnw : normWsCore (normCompanyCore s) = normCompanyCore s :=
    suffixStrip_normWs_fixed (normWsCore (stripHtmlCore s)) (wsOk_normWs _)
      (pyStrip_head _) (pyStrip_last _)
  show suffixStrip (normWsCore (stripHtmlCore (normCompanyCore s))) = normCompanyCore s
  rw [hstrip, hnw, hsuf]

theorem pyStrip_infix (s : List Char) : pyStrip s <:+: s := by
  unfold pyStrip
  have h2 : List.dropWhile isPySpace (List.dropWhile isPySpace s).reverse <:+
      (List.dropWhile isPySpace s).reverse := List.dropWhile_suffix _
  have h3 : (List.dropWhile isPySpace (List.dropWhile isPySpace s).reverse).reverse <+:
      List.dropWhile isPySpace s := by
    obtain ⟨u, hu⟩ := h2
    refine ⟨u.reverse, ?_⟩
    rw [← List.reverse_append, hu, List.reverse_reverse]
  exact h3.isInfix.trans (List.dropWhile_suffix _).isInfix

theorem reverse_suffix_prefix {l' l : List Char} (h : l' <:+ l.reverse) :
    l'.reverse <+: l := by
  obtain ⟨u, hu⟩ := h
  refine ⟨u.reverse, ?_⟩
  rw [← List.reverse_append, hu, List.reverse_reverse]

theorem wsOk_append {a b : List Char} (ha : wsOk a) (hb : wsOk b)
    (hj : ∀ x ∈ a.getLast?, ∀ y ∈ b.head?, wsRel x y) : wsOk (a ++ b) := by
  refine ⟨fun c hc hsp => ?_, List.chain'_append.mpr ⟨ha.2, hb.2, hj⟩⟩
  rcases List.mem_append.mp hc with h | h
  · exact ha.1 c h hsp
  · exact hb.1 c h hsp

theorem variants_not_remote_paren (u : List Char) :
    REMOTE_VARIANTS.contains
      ('r' :: 'e' :: 'm' :: 'o' :: 't' :: 'e' :: ' ' :: '(' :: u) = false := by
  simp [REMOTE_VARIANTS, List.contains]

theorem remoteSep_some {t region : List Char} (h : remoteSep t = some region) :
    region <:+: t ∧
    (∀ c, region.head? = some c → isPySpace c = false) ∧
    (∀ c, region.getLast? = some c → isPySpace c = false) := by
  unfold remoteSep at h
  split at h
  · split at h
    · rename_i c rest hd
      split at h
      · split at h
        · exact absurd h (by simp)
        · rename_i x hne
          have hreg : region =
              pyStrip ((rest.dropWhile isPySpace).takeWhile (fun a => a != '\n')) := by
            simpa using h.symm
          subst hreg
          refine ⟨?_, pyStrip_head _, pyStrip_last _⟩
          have h1 := pyStrip_infix
            ((rest.dropWhile isPySpace).takeWhile (fun a => a != '\n'))
          have h2 : (rest.dropWhile isPySpace).takeWhile (fun a => a != '\n') <+:
              rest.dropWhile isPySpace := List.takeWhile_prefix _
          have h3 : rest.dropWhile isPySpace <:+ rest := List.dropWhile_suffix _
          have h4 : rest <:+ c :: rest := List.suffix_cons c rest
          have h5 : c :: rest <:+ t.drop 6 := hd ▸ List.dropWhile_suffix _
          have h6 : t.drop 6 <:+ t := List.drop_suffix _ _
          exact h1.trans (h2.isInfix.trans (h3.isInfix.trans (h4.isInfix.trans
            (h5.isInfix.trans h6.isInfix))))
      · exact absurd h (by simp)
    · exact absurd h (by simp)
  · exact absurd h (by simp)

theorem remoteParen_some {t region : List Char} (h : remoteParen t = some region) :
    region <:+: t ∧
    (∀ c, region.head? = some c → isPySpace c = false) ∧
    (∀ c, region.getLast? = some c → isPySpace c = false) := by
  unfold remoteParen at h
  split at h
  · split at h
    · rename_i rest hd
      split at h
      · rename_i revBody heq2
        split at h
        · exact absurd h (by simp)
        · rename_i x hne
          have hreg : region = pyStrip revBody.reverse := by simpa using h.symm
          subst hreg
          refine ⟨?_, pyStrip_head _, pyStrip_last _⟩
          have h1 := pyStrip_infix revBody.reverse
          have h2 : revBody.reverse <+: rest := by
            refine reverse_suffix_prefix ?_
            exact (List.suffix_cons ')' revBody).trans (heq2 ▸ List.dropWhile_suffix _)
          have h4 : rest <:+ '(' :: rest := List.suffix_cons '(' rest
          have h5 : '(' :: rest <:+ t.drop 6 := hd ▸ List.dropWhile_suffix _
          have h6 : t.drop 6 <:+ t := List.drop_suffix _ _
          exact h1.trans (h2.isInfix.trans (h4.isInfix.trans
            (h5.isInfix.trans h6.isInfix)))
      · exact absurd h (by simp)
    · exact absurd h (by simp)
  · exact absurd h (by simp)

theorem normLoc_paren_fixed (region : List Char) (hne : region ≠ [])
    (hws : wsOk region)
    (hh : ∀ c, region.head? = some c → isPySpace c = false)
    (hl : ∀ c, region.getLast? = some c → isPySpace c = false)
    (hstrip : stripHtmlCore ("Remote (".data ++ region ++ [')']) =
      "Remote (".data ++ region ++ [')']) :
    normLocCore ("Remote (".data ++ region ++ [')']) =
      "Remote (".data ++ region ++ [')'] := by
  have hchainA : List.Chain' wsRel ['R', 'e', 'm', 'o', 't', 'e', ' ', '('] := by
    simp only [List.chain'_cons, List.chain'_singleton]
    decide
  have hyws : wsOk ("Remote (".data ++ region ++ [')']) := by
    rw [List.append_assoc]
    refine wsOk_append (a := "Remote (".data) ⟨by decide, hchainA⟩ ?_ ?_
    · refine wsOk_append hws ⟨by decide, by simp⟩ ?_
      intro x hx z hz
      have hz' : z = ')' := by simpa using hz.symm
      subst hz'
      intro hcon
      exact absurd hcon.2 (by decide)
    · intro x hx z hz
      have hx' : x = '(' := by simpa using hx.symm
      subst hx'
      intro hcon
      exact absurd hcon.1 (by decide)
  have hyh : ∀ c, ("Remote (".data ++ region ++ [')']).head? = some c →
      isPySpace c = false := by
    intro c hc
    rw [show ("Remote (".data ++ region ++ [')']).head? = some 'R' from rfl] at hc
    have hc' : c = 'R' := by simpa using hc.symm
    subst hc'
    decide
  have hyl : ∀ c, ("Remote (".data ++ region ++ [')']).getLast? = some c →
      isPySpace c = false := by
    intro c hc
    rw [List.getLast?_append_of_ne_nil _ (by simp)] at hc
    have hc' : c = ')' := by simpa using hc.symm
    subst hc'
    decide
  have hnw : normWsCore ("Remote (".data ++ region ++ [')']) =
      "Remote (".data ++ region ++ [')'] := normWs_fixed_of _ hyws hyh hyl
  have hps : pyStrip ("Remote (".data ++ region ++ [')']) =
      "Remote (".data ++ region ++ [')'] := pyStrip_fixed _ hyh hyl
  have hv' : REMOTE_VARIANTS.contains
      (lowerStr ("Remote (".data ++ region ++ [')'])) = false := by
    have he : lowerStr ("Remote (".data ++ region ++ [')']) =
        'r' :: 'e' :: 'm' :: 'o' :: 't' :: 'e' :: ' ' :: '(' ::
        (List.map Char.toLower (region ++ [')'])) := rfl
    rw [he]
    exact variants_not_remote_paren _
  have hsep' : remoteSep ("Remote (".data ++ region ++ [')']) = none := rfl
  obtain ⟨r0, rs, rfl⟩ : ∃ a l, region = a :: l := by
    cases region with
    | nil => exact absurd rfl hne
    | cons a l => exact ⟨a, l, rfl⟩
  have hpar' : remoteParen ("Remote (".data ++ (r0 :: rs) ++ [')']) =
      some (r0 :: rs) := by
    unfold remoteParen
    have hcond : lowerStr (("Remote (".data ++ (r0 :: rs) ++ [')']).take 6) =
        "remote".data ∧ 6 ≤ ("Remote (".data ++ (r0 :: rs) ++ [')']).length := by
      constructor
      · show lowerStr ['R', 'e', 'm', 'o', 't', 'e'] = "remote".data
        decide
      · rw [List.length_append, List.length_append,
          show ("Remote (".data).length = 8 from by decide]
        omega
    rw [if_pos hcond]
    have hd : List.dropWhile isPySpace
        (List.drop 6 ("Remote (".data ++ (r0 :: rs) ++ [')'])) =
        '(' :: ((r0 :: rs) ++ [')']) := rfl
    rw [hd]
    have hrv : ((r0 :: rs) ++ [')']).reverse.dropWhile (fun a => a != ')') =
        ')' :: (r0 :: rs).reverse := by
      rw [List.reverse_append]
      show List.dropWhile (fun a => a != ')') (')' :: (r0 :: rs).reverse) = _
      rw [List.dropWhile_cons, if_neg (by decide)]
    split
    · rename_i rest heq
      obtain rfl : rest = (r0 :: rs) ++ [')'] := by
        injection heq with h0 h1
        exact h1.symm
      rw [hrv]
      split
      · rename_i revBody heq2
        obtain rfl : revBody = (r0 :: rs).reverse := by
          injection heq2 with h20 h2
          exact h2.symm
        rw [List.reverse_reverse]
        split
        · rename_i heq3
          exact absurd heq3 (by simp)
        · rename_i x3 hne3
          rw [pyStrip_fixed _ hh hl]
      · rename_i hcatch2
        exact (hcatch2 (r0 :: rs).reverse rfl).elim
    · rename_i hcatch
      exact (hcatch ((r0 :: rs) ++ [')']) rfl).elim
  simp only [normLocCore]
  rw [hstrip, hnw, hps, hv', if_neg (by decide), hsep', hpar']

set_option maxHeartbeats 2000000 in
theorem normLoc_idem_of (s : List Char)
    (hstrip : stripHtmlCore (normLocCore s) = normLocCore s) :
    normLocCore (normLocCore s) = normLocCore s := by
  by_cases hv : REMOTE_VARIANTS.contains
      (lowerStr (pyStrip (normWsCore (stripHtmlCore s)))) = true
  · have h1 : normLocCore s = "Remote".data := by
      simp only [normLocCore]
      rw [if_pos hv]
    rw [h1]
    decide
  · rw [Bool.not_eq_true] at hv
    cases hsep : remoteSep (normWsCore (stripHtmlCore s)) with
    | some region =>
      have h1 : normLocCore s = "Remote (".data ++ region ++ [')'] := by
        simp only [normLocCore]
        rw [if_neg (by rw [hv]; decide), hsep]
      obtain ⟨hinf, hh, hl⟩ := remoteSep_some hsep
      cases hre : region with
      | nil =>
        rw [h1, hre]
        decide
      | cons r0 rs =>
        subst hre
        rw [h1] at hstrip ⊢
        exact normLoc_paren_fixed (r0 :: rs) (by simp)
          (wsOk_within hinf (wsOk_normWs _)) hh hl hstrip
    | none =>
      cases hpar : remoteParen (normWsCore (stripHtmlCore s)) with
      | some region =>
        have h1 : normLocCore s = "Remote (".data ++ region ++ [')'] := by
          simp only [normLocCore]
          rw [if_neg (by rw [hv]; decide), hsep, hpar]
        obtain ⟨hinf, hh, hl⟩ := remoteParen_some hpar
        cases hre : region with
        | nil =>
          rw [h1, hre]
          decide
        | cons r0 rs =>
          subst hre
          rw [h1] at hstrip ⊢
          exact normLoc_paren_fixed (r0 :: rs) (by simp)
            (wsOk_within hinf (wsOk_normWs _)) hh hl hstrip
      | none =>
        have h1 : normLocCore s = normWsCore (stripHtmlCore s) := by
          simp only [normLocCore]
          rw [if_neg (by rw [hv]; decide), hsep, hpar]
        rw [h1] at hstrip ⊢
        simp only [normLocCore]
        rw [hstrip, normWs_idem, hv, if_neg (by decide), hsep, hpar]

/-- C5 counterexample: none of the three normalizers is idempotent on all
inputs. For the title, `"srsr"` normalizes to `"Senior Sr"` (the second, now
standalone `Sr` was shielded from expansion by the word boundary on the first
pass) and a second pass expands it again to `"Senior Senior"`. For the
company, `"Acme Inc Inc"` loses one trailing legal suffix per pass: first to
`"Acme Inc"`, then to `"Acme"`. For the location, `some " "` normalizes to
`some ""` (the raw value is truthy but whitespace-normalizes to empty), and a
second pass hits the falsy-input branch and returns `none`. -/
theorem C5_normalizer_counterexample :
    normalize_title (normalize_title "srsr") ≠ normalize_title "srsr" ∧
    normalize_company (normalize_company "Acme Inc Inc") ≠
      normalize_company "Acme Inc Inc" ∧
    normalize_location (normalize_location (some " ")) ≠
      normalize_location (some " ") := by
  refine ⟨?_, ?_, ?_⟩ <;> decide

theorem data_mk (l : List Char) : (⟨l⟩ : String).data = l := rfl

theorem normalize_title_mk (x : String) :
    normalize_title x = ⟨normTitleCore x.data⟩ := rfl

theorem normalize_company_mk (x : String) :
    normalize_company x = ⟨normCompanyCore x.data⟩ := rfl

set_option maxHeartbeats 2000000 in
/-- C5 (amended): each normalizer is idempotent on every input whose
first-pass output is a fixed point of the passes that can still fire on
re-entry. Title: if the normalized title is unchanged by HTML stripping and
by abbreviation expansion, a second `normalize_title` is the identity (the
whitespace collapse and the per-word casing pass are idempotent
unconditionally, which is the content proved here). Company: if the
normalized company is unchanged by HTML stripping and by legal-suffix
stripping, a second `normalize_company` is the identity. Location: if the
normalized location is not the empty string (which the falsy-input branch
would turn into `None`) and is unchanged by HTML stripping, a second
`normalize_location` is the identity — in particular the remote-region
rewrite `Remote (X)` is stable, because its output re-enters through the
paren pattern and re-extracts exactly `X`. -/
theorem C5_normalizer_amended (a b : String) (c : Option String)
    (h1 : stripHtmlCore (normTitleCore a.data) = normTitleCore a.data)
    (h2 : expandAll (normTitleCore a.data) = normTitleCore a.data)
    (h3 : stripHtmlCore (normCompanyCore b.data) = normCompanyCore b.data)
    (h4 : suffixStrip (normCompanyCore b.data) = normCompanyCore b.data)
    (h5 : normalize_location c ≠ some "")
    (h6 : ∀ y ∈ normalize_location c, stripHtmlCore y.data = y.data) :
    normalize_title (normalize_title a) = normalize_title a ∧
    normalize_company (normalize_company b) = normalize_company b ∧
    normalize_location (normalize_location c) = normalize_location c := by
  refine ⟨?_, ?_, ?_⟩
  · rw [normalize_title_mk a, normalize_title_mk, data_mk]
    exact congrArg String.mk (normTitle_idem_of a.data h1 h2)
  · rw [normalize_company_mk b, normalize_company_mk, data_mk]
    exact congrArg String.mk (normCompany_idem_of b.data h3 h4)
  · cases c with
    | none => rfl
    | some s =>
      by_cases hs : s = ""
      · subst hs
        rfl
      · have hys : normalize_location (some s) = some ⟨normLocCore s.data⟩ := by
          simp only [normalize_location]
          rw [if_neg hs]
        rw [hys] at h5 h6 ⊢
        have hstr : stripHtmlCore (normLocCore s.data) = normLocCore s.data :=
          h6 _ rfl
        simp only [normalize_location]
        rw [if_neg (fun h0 => h5 (by rw [h0])), data_mk]
        exact congrArg (fun l => some (⟨l⟩ : String)) (normLoc_idem_of s.data hstr)

/-- Witness for C5 at concrete inputs: `"Dev Team"` (title), `"Acme Inc"`
(company) and `Remote, US` (location) satisfy the fixed-point hypotheses, and
the amended theorem yields idempotence on them. -/
theorem C5_normalizer_amended_witness :
    normalize_title (normalize_title "Dev Team") = normalize_title "Dev Team" ∧
    normalize_company (normalize_company "Acme Inc") = normalize_company "Acme Inc" ∧
    normalize_location (normalize_location (some "Remote, US")) =
      normalize_location (some "Remote, US") :=
  C5_normalizer_amended "Dev Team" "Acme Inc" (some "Remote, US")
    (by decide) (by decide) (by decide) (by decide) (by decide)
    (by
      intro y hy
      rw [show normalize_location (some "Remote, US") = some "Remote (US)" from
        by decide] at hy
      have hy' : y = "Remote (US)" := by simpa using hy.symm
      subst hy'
      decide)

end JobPulse
